import Mathlib

/-!
Verification of the dynaj/gjp generic JSON processor: path-addressed
resolution, mutation, traversal, range and diff over a dynamically typed
document tree.  The definitions below are a shallow embedding of the Go
source (document.go, path.go, diff.go): Go `any` trees become the `Node`
inductive, Go maps become association lists with unique keys, fallible
functions return a result type with an explicit constructor for runtime
panics (Go index-out-of-range), and `strconv.Atoi` / path splitting are
modelled character by character.
-/

namespace Gjp

/-- Node models Go `any` holding a decoded JSON tree: `null` is the Go nil
interface (JSON null and also the absent value), `obj` is `map[string]any`
(modelled as an association list with unique keys), `arr` is `[]any`, and
the remaining constructors are the scalar leaves. -/
inductive Node where
  | null
  | bool (b : Bool)
  | num (x : Int)
  | str (s : String)
  | arr (elems : List Node)
  | obj (fields : List (String × Node))

/-- Err enumerates the kinds of error the engine returns, matching the
message families in the source: `invalidPath` ("invalid path"),
`pathTooLong` ("path is too long"), `corrupt` ("would corrupt document"),
`invalidIndex` ("invalid index in array"), `negativeIndex`
("negative index for array"), `notJSON` ("document is not a valid JSON
structure"), `containerChild` (Range: "is object or array"). -/
inductive Err where
  | invalidPath
  | pathTooLong
  | corrupt
  | invalidIndex
  | negativeIndex
  | notJSON
  | containerChild
  deriving DecidableEq

/-- Res is the outcome of a fallible Go call: a value, a returned error,
or a runtime panic (Go index-out-of-range / makeslice crash). -/
inductive Res (α : Type) where
  | ok (a : α)
  | err (e : Err)
  | panic

/-- isObjectOrArray checks if the node is an object or an array
(path.go). -/
def isObjectOrArray : Node → Bool
  | .obj _ => true
  | .arr _ => true
  | _ => false

/-- isValue checks if the node is a (non-null) scalar value: Go's type
switch sends Object, Array and nil to false (path.go). -/
def isValue : Node → Bool
  | .obj _ => false
  | .arr _ => false
  | .null => false
  | _ => true

/-- sepChar is the path separator rune of the default separator "/". -/
def sepChar : Char := ('/')

/-- digitsToNatAux folds decimal digits into an accumulator exactly as
the conversion loop of `strconv.ParseUint` does; a non-digit is a parse
error. -/
def digitsToNatAux (acc : Nat) : List Char → Option Nat
  | [] => some acc
  | c :: cs =>
    if c.isDigit then digitsToNatAux (acc * 10 + (c.toNat - 48)) cs else none

/-- digitsToNat parses a non-empty all-digit character list as a base-10
natural number, as `strconv.Atoi` does after sign stripping. -/
def digitsToNat : List Char → Option Nat
  | [] => none
  | l => digitsToNatAux 0 l

/-- atoi models `strconv.Atoi`: an optional leading sign followed by at
least one decimal digit; anything else is a parse error. -/
def atoi (s : String) : Option Int :=
  match s.toList with
  | ('-') :: rest => (digitsToNat rest).map (fun n => -(n : Int))
  | ('+') :: rest => (digitsToNat rest).map (fun n => (n : Int))
  | l => (digitsToNat l).map (fun n => (n : Int))

/-- splitRaw splits a character list at every separator occurrence,
keeping empty fragments, as `strings.Split(path, "/")` does. -/
def splitRaw : List Char → List Char → List String
  | [], acc => [String.mk acc.reverse]
  | c :: cs, acc =>
    if c = sepChar then String.mk acc.reverse :: splitRaw cs []
    else splitRaw cs (c :: acc)

/-- splitPath splits and cleans the path into parts: split on the
separator, drop the empty parts (path.go). -/
def splitPath (path : String) : List String :=
  (splitRaw path.toList []).filter (· ≠ "")

/-- pathify creates a path out of parts and the separator (path.go). -/
def pathify (parts : List String) : String :=
  "/" ++ String.intercalate "/" parts

/-- ht retrieves head and tail from a parts list (path.go). -/
def ht : List String → String × List String
  | [] => ("", [])
  | h :: t => (h, t)

/-- lookupField is Go's comma-ok map read `field, ok := n[h]` on the
association-list model of a JSON object. -/
def lookupField : List (String × Node) → String → Option Node
  | [], _ => none
  | (k, v) :: rest, h => if k = h then some v else lookupField rest h

/-- objGet is Go's defaulting map read `n[h]`: a missing key yields the
nil interface, i.e. `Node.null`. -/
def objGet (fields : List (String × Node)) (h : String) : Node :=
  match lookupField fields h with
  | some v => v
  | none => .null

/-- setField is Go's map write `n[h] = v`: replace the binding if the key
exists, otherwise add it. -/
def setField : List (String × Node) → String → Node → List (String × Node)
  | [], h, v => [(h, v)]
  | (k, w) :: rest, h, v =>
    if k = h then (k, v) :: rest else (k, w) :: setField rest h v

/-- valueAt returns the value at the given path (path.go).  At an object
the head must be an existing key; at an array it must parse as an integer
smaller than the length — the source only guards `index >= len(n)`, so a
negative parsed index reaches `n[index]` and panics; a leaf (or nil) with
parts remaining is "path is too long". -/
def valueAt : Node → List String → Res Node
  | node, [] => .ok node
  | node, h :: t =>
    if h = "" then .ok node
    else
      match node with
      | .obj fields =>
        match lookupField fields h with
        | some field => valueAt field t
        | none => .err .invalidPath
      | .arr xs =>
        match atoi h with
        | none => .err .invalidPath
        | some i =>
          if (xs.length : Int) ≤ i then .err .invalidPath
          else if i < 0 then .panic
          else valueAt (xs.getD i.toNat .null) t
      | _ => .err .pathTooLong

/-- createValue creates a value at the end of the keys list
(document.go).  A head that parses as an integer synthesizes an array of
length index+1 holding the recursive result at the index; the source does
not guard the sign, so a negative index crashes on `make`/`arr[index]`
(modelled as panic).  A non-numeric head synthesizes a one-key object. -/
def createValue : List String → Node → Res Node
  | [], value => .ok value
  | h :: t, value =>
    match atoi h with
    | some i =>
      if i < 0 then .panic
      else
        match createValue t value with
        | .ok sub => .ok (.arr ((List.replicate (i.toNat + 1) Node.null).set i.toNat sub))
        | .err e => .err e
        | .panic => .panic
    | none =>
      match createValue t value with
      | .ok sub => .ok (.obj [(h, sub)])
      | .err e => .err e
      | .panic => .panic

mutual

/-- insertValueInNode recursively inserts a value at the end of the keys
list (document.go): an empty keys list replaces the node by the value; a
nil node is synthesized by createValue; objects and arrays dispatch to
their insert helpers; a scalar node is "not a valid JSON structure". -/
def insertValueInNode (node : Node) (keys : List String) (value : Node) : Res Node :=
  match keys with
  | [] => .ok value
  | h :: t =>
    match node with
    | .null => createValue (h :: t) value
    | .obj fields => insertValueInObject fields (h :: t) value
    | .arr elems => insertValueInArray elems (h :: t) value
    | _ => .err .notJSON
termination_by 2 * keys.length + 1
decreasing_by all_goals simp_wf <;> omega

/-- insertValueInObject inserts a value in a JSON object at the end of
the keys list (document.go): on the final key an object-or-array occupant
is a corruption error, otherwise the key is written; descending through a
non-null scalar occupant is a corruption error.  The `[]` arm mirrors Go's
`ht` yielding head "" there. -/
def insertValueInObject (obj : List (String × Node)) (keys : List String) (value : Node) : Res Node :=
  match keys with
  | [] =>
    if isObjectOrArray (objGet obj "") then .err .corrupt
    else .ok (.obj (setField obj "" value))
  | [h] =>
    if isObjectOrArray (objGet obj h) then .err .corrupt
    else .ok (.obj (setField obj h value))
  | h :: t =>
    if isValue (objGet obj h) then .err .corrupt
    else
      match insertValueInNode (objGet obj h) t value with
      | .ok newNode => .ok (.obj (setField obj h newNode))
      | .err e => .err e
      | .panic => .panic
termination_by 2 * keys.length
decreasing_by all_goals simp_wf <;> omega

/-- growArr models the growth step of insertValueInArray (document.go):
when the index is at or past the length, a fresh slice of length index+1
is allocated (its new entries the nil interface) and the old entries are
copied in; otherwise the array is reused as is. -/
def growArr (arr : List Node) (i : Int) : List Node :=
  if (arr.length : Int) ≤ i then arr ++ List.replicate (i.toNat + 1 - arr.length) Node.null
  else arr

/-- insertValueInArray inserts a value in an array at a given path
(document.go): the head must parse as an integer (else "invalid index"),
must be non-negative (else "negative index"), and an index at or past the
length grows the array with nil entries up to index+1; then the same
corruption checks as for objects apply at the slot.  The `[]` arm mirrors
Go's `ht` yielding head "", which fails `strconv.Atoi`. -/
def insertValueInArray (arr : List Node) (path : List String) (value : Node) : Res Node :=
  match path with
  | [] => .err .invalidIndex
  | h :: t =>
    match atoi h with
    | none => .err .invalidIndex
    | some i =>
      if i < 0 then .err .negativeIndex
      else
        let grown := growArr arr i
        if t.isEmpty then
          if isObjectOrArray (grown.getD i.toNat .null) then .err .corrupt
          else .ok (.arr (grown.set i.toNat value))
        else
          if isValue (grown.getD i.toNat .null) then .err .corrupt
          else
            match insertValueInNode (grown.getD i.toNat .null) t value with
            | .ok newNode => .ok (.arr (grown.set i.toNat newNode))
            | .err e => .err e
            | .panic => .panic
termination_by 2 * path.length
decreasing_by all_goals simp_wf <;> omega

end

/-- Document represents one JSON document; an empty document's root is
the nil interface, i.e. `Node.null` (document.go). -/
structure Document where
  root : Node

/-- NewDocument creates a new empty document (document.go). -/
def NewDocument : Document := ⟨.null⟩

/-- PathValue is the addressed-value part of the Go `PathValue`: the
resolved node (Go nil becomes `Node.null`) and whether the lookup stored
an error (value.go). -/
structure PathValue where
  node : Node
  isErr : Bool

/-- ValueAt returns the addressed value: on resolution failure the
returned PathValue carries the error and a nil node (document.go).
`none` stands for a Go panic escaping the call. -/
def Document.ValueAt (d : Document) (path : String) : Option PathValue :=
  match valueAt d.root (splitPath path) with
  | .ok n => some ⟨n, false⟩
  | .err _ => some ⟨.null, true⟩
  | .panic => none

/-- Length returns the number of elements for the given path: -1 on a
resolution failure, the entry count for containers, 1 otherwise
(document.go).  `none` stands for a Go panic escaping the call. -/
def Document.Length (d : Document) (path : String) : Option Int :=
  match valueAt d.root (splitPath path) with
  | .ok (.obj fields) => some fields.length
  | .ok (.arr elems) => some elems.length
  | .ok _ => some 1
  | .err _ => some (-1)
  | .panic => none

/-- SetValueAt sets the value at the given path, replacing the stored
root on success (document.go). -/
def Document.SetValueAt (d : Document) (path : String) (value : Node) : Res Document :=
  match insertValueInNode d.root (splitPath path) value with
  | .ok root => .ok ⟨root⟩
  | .err e => .err e
  | .panic => .panic

/-- digitChar is the decimal digit character for a value below ten. -/
def digitChar (n : Nat) : Char := Char.ofNat (48 + n)

/-- itoaAux emits the decimal digits of `n` most-significant first; the
fuel argument (always larger than `n`) makes the division recursion
structural. -/
def itoaAux : Nat → Nat → List Char
  | 0, _ => []
  | fuel + 1, n =>
    if n < 10 then [digitChar n] else itoaAux fuel (n / 10) ++ [digitChar (n % 10)]

/-- itoa models `strconv.Itoa` on the non-negative ints used as array
indices. -/
def itoa (n : Nat) : String := String.mk (itoaAux (n + 1) n)

/-- digitVal is the numeric value of a decimal digit character. -/
def digitVal (c : Char) : Nat := c.toNat - 48

/-- ofDigits folds decimal digit characters back into a number; it is the
left inverse used to show `itoa` injective. -/
def ofDigits (l : List Char) : Nat := l.foldl (fun a c => a * 10 + digitVal c) 0

mutual

/-- processKeys models the recursive visitor `process` (document.go) with
a visitor that never fails, returning the visited (keys, node) pairs in
visitation order: an empty container is visited itself once, a non-empty
container recurses into every child with the key or index appended, and
any other node is visited once as a value. -/
def processKeys : Node → List String → List (List String × Node)
  | .obj [], keys => [(keys, .obj [])]
  | .obj (f :: fs), keys => processFields (f :: fs) keys
  | .arr [], keys => [(keys, .arr [])]
  | .arr (x :: xs), keys => processElems (x :: xs) 0 keys
  | node, keys => [(keys, node)]

/-- processFields visits the fields of a non-empty object in order
(document.go, the Object arm of `process`). -/
def processFields : List (String × Node) → List String → List (List String × Node)
  | [], _ => []
  | (key, subnode) :: rest, keys =>
    processKeys subnode (keys ++ [key]) ++ processFields rest keys

/-- processElems visits the elements of a non-empty array in index order
(document.go, the Array arm of `process`). -/
def processElems : List Node → Nat → List String → List (List String × Node)
  | [], _, _ => []
  | subnode :: rest, idx, keys =>
    processKeys subnode (keys ++ [itoa idx]) ++ processElems rest (idx + 1) keys

end

/-- visitedPVs is `Document.Process` with a collecting visitor: the
(path, node) pairs passed to the processor, with paths rendered by
pathify as in the source. -/
def visitedPVs (d : Document) : List (String × Node) :=
  (processKeys d.root []).map (fun pv => (pathify pv.1, pv.2))

/-- visitedPaths is the list of path strings passed to the processor by
`Document.Process`. -/
def visitedPaths (d : Document) : List String :=
  (visitedPVs d).map Prod.fst

mutual

/-- leafCount counts the non-container nodes of a tree (every such node
is visited exactly once by the recursive visitor). -/
def leafCount : Node → Nat
  | .arr xs => leafCountL xs
  | .obj fs => leafCountF fs
  | _ => 1

/-- leafCountL sums leafCount over array elements. -/
def leafCountL : List Node → Nat
  | [] => 0
  | x :: xs => leafCount x + leafCountL xs

/-- leafCountF sums leafCount over object fields. -/
def leafCountF : List (String × Node) → Nat
  | [] => 0
  | (_, v) :: fs => leafCount v + leafCountF fs

end

mutual

/-- emptyContainerCount counts the empty objects and empty arrays of a
tree (each is visited exactly once by the recursive visitor). -/
def emptyContainerCount : Node → Nat
  | .arr [] => 1
  | .obj [] => 1
  | .arr (x :: xs) => emptyContainerCountL (x :: xs)
  | .obj (f :: fs) => emptyContainerCountF (f :: fs)
  | _ => 0

/-- emptyContainerCountL sums emptyContainerCount over array elements. -/
def emptyContainerCountL : List Node → Nat
  | [] => 0
  | x :: xs => emptyContainerCount x + emptyContainerCountL xs

/-- emptyContainerCountF sums emptyContainerCount over object fields. -/
def emptyContainerCountF : List (String × Node) → Nat
  | [] => 0
  | (_, v) :: fs => emptyContainerCount v + emptyContainerCountF fs

end

/-- distinctKeys checks that a key list has no duplicates, the invariant
Go map keys always satisfy. -/
def distinctKeys : List String → Bool
  | [] => true
  | k :: ks => (!ks.contains k) && distinctKeys ks

mutual

/-- wfNode states the Go-map invariant on the association-list model:
every object's keys are pairwise distinct, recursively. -/
def wfNode : Node → Bool
  | .arr xs => wfNodeL xs
  | .obj fs => distinctKeys (fs.map Prod.fst) && wfNodeF fs
  | _ => true

/-- wfNodeL checks wfNode on array elements. -/
def wfNodeL : List Node → Bool
  | [] => true
  | x :: xs => wfNode x && wfNodeL xs

/-- wfNodeF checks wfNode on object fields. -/
def wfNodeF : List (String × Node) → Bool
  | [] => true
  | (_, v) :: fs => wfNode v && wfNodeF fs

end

mutual

/-- deepEqual models `reflect.DeepEqual` on decoded JSON trees: scalars
compare by value, arrays element-wise, and maps by equal size with every
key of the left map bound in the right map to a deeply equal value. -/
def deepEqual : Node → Node → Bool
  | .null, .null => true
  | .bool a, .bool b => a == b
  | .num a, .num b => a == b
  | .str a, .str b => a == b
  | .arr xs, .arr ys => deepEqualL xs ys
  | .obj fs, .obj gs => (fs.length == gs.length) && deepEqualF fs gs
  | _, _ => false

/-- deepEqualL compares arrays element-wise with deepEqual. -/
def deepEqualL : List Node → List Node → Bool
  | [], [] => true
  | x :: xs, y :: ys => deepEqual x y && deepEqualL xs ys
  | _, _ => false

/-- deepEqualF checks that every field of the left map is bound in the
right map to a deeply equal value. -/
def deepEqualF : List (String × Node) → List (String × Node) → Bool
  | [], _ => true
  | (k, v) :: fs, gs =>
    (match lookupField gs k with
     | some w => deepEqual v w
     | none => false) && deepEqualF fs gs

end

/-- isNull recognizes the Go nil interface value. -/
def isNull : Node → Bool
  | .null => true
  | _ => false

/-- IsUndefined returns true if the value is undefined: a nil node and no
stored error (value.go). -/
def PathValue.IsUndefined (pv : PathValue) : Bool := isNull pv.node && !pv.isErr

/-- Equals compares a value with the passed one (diff.go / value.go):
both undefined is equal, exactly one undefined is unequal, otherwise
`reflect.DeepEqual` on the nodes. -/
def PathValue.Equals (pv other : PathValue) : Bool :=
  if pv.IsUndefined && other.IsUndefined then true
  else if pv.IsUndefined || other.IsUndefined then false
  else deepEqual pv.node other.node

/-- rangeFields models the Object arm of `Document.Range` (document.go):
each immediate field is visited in order unless it is itself an object or
array, which aborts with the "is object or array" error. -/
def rangeFields (path : String) : List (String × Node) → Res (List (String × Node))
  | [] => .ok []
  | (key, sub) :: rest =>
    if isObjectOrArray sub then .err .containerChild
    else
      match rangeFields path rest with
      | .ok l => .ok ((path ++ "/" ++ key, sub) :: l)
      | r => r

/-- rangeElems models the Array arm of `Document.Range` (document.go). -/
def rangeElems (path : String) (idx : Nat) : List Node → Res (List (String × Node))
  | [] => .ok []
  | sub :: rest =>
    if isObjectOrArray sub then .err .containerChild
    else
      match rangeElems path (idx + 1) rest with
      | .ok l => .ok ((path ++ "/" ++ itoa idx, sub) :: l)
      | r => r

/-- Range iterates non-recursively over the node addressed by the path
with a visitor that never fails, returning the visited (path, node)
pairs (document.go): a resolution failure is propagated wrapped, a
container is visited child by child refusing container children, and any
other node is visited exactly once. -/
def Document.Range (d : Document) (path : String) : Res (List (String × Node)) :=
  match valueAt d.root (splitPath path) with
  | .panic => .panic
  | .err e => .err e
  | .ok (.obj fields) => rangeFields path fields
  | .ok (.arr elems) => rangeElems path 0 elems
  | .ok node => .ok [(path, node)]

/-- comparePass1 is the first pass of `Diff.compare` (diff.go): every
(path, node) pair visited in the first document is looked up in the
second document, and the path is recorded when `Equals` fails.  `none`
stands for a panic escaping from the lookup. -/
def comparePass1 (second : Document) : List (String × Node) → Option (List String)
  | [] => some []
  | (path, node) :: rest =>
    match second.ValueAt path with
    | none => none
    | some pv =>
      match comparePass1 second rest with
      | none => none
      | some l => some (if PathValue.Equals ⟨node, false⟩ pv then l else path :: l)

/-- Diff.compare records the differing paths of two documents (diff.go):
pass one records every path visited in the first document whose value is
not `Equals` to the second document's value there; pass two appends every
path visited in the second document that was not visited in the first. -/
def Diff.compare (first second : Document) : Option (List String) :=
  match comparePass1 second (visitedPVs first) with
  | none => none
  | some l1 =>
    some (l1 ++ (visitedPaths second).filter (fun p => !((visitedPaths first).contains p)))

/-- recordedInPass1 is the recording condition claimed for the first
pass of the diff: resolution of the path in the second document fails, or
it yields a value that differs from the first document's value by deep
structural equality (an unresolved path counting as different from a null
leaf). -/
def recordedInPass1 (second : Document) (path : String) (node : Node) : Bool :=
  match valueAt second.root (splitPath path) with
  | .err _ => true
  | .ok w => !(deepEqual node w)
  | .panic => false

/-- sameInt tests whether two path segments parse as the same integer,
so that they would address the same slot of an array even though they are
different strings (such as "1" and "01"). -/
def sameInt (a b : String) : Bool :=
  match atoi a, atoi b with
  | some m, some n => m == n
  | _, _ => false

/-- divergesB tests that two segment sequences separate cleanly: at the
first position where they differ as strings, both sequences still have a
segment and the two segments do not parse as the same integer.  It
implies that neither sequence is a prefix of the other. -/
def divergesB : List String → List String → Bool
  | a :: p, b :: q => if a = b then divergesB p q else !(sameInt a b)
  | _, _ => false

end Gjp

namespace Gjp

/-- node_ind is structural induction over the nested Node inductive with
membership hypotheses for container children. -/
theorem node_ind {P : Node → Prop} (h0 : P .null) (h1 : ∀ b, P (.bool b))
    (h2 : ∀ x, P (.num x)) (h3 : ∀ s, P (.str s))
    (h4 : ∀ elems, (∀ x ∈ elems, P x) → P (.arr elems))
    (h5 : ∀ fields, (∀ kv ∈ fields, P kv.2) → P (.obj fields)) :
    ∀ n, P n :=
  @Node.rec P (fun l => ∀ x ∈ l, P x) (fun l => ∀ kv ∈ l, P kv.2)
    (fun kv => P kv.2) h0 h1 h2 h3 h4 h5
    (by intro x hx; cases hx)
    (fun hd tl ph pt => by
      intro x hx
      rcases List.mem_cons.mp hx with h | h
      · exact h ▸ ph
      · exact pt x h)
    (by intro kv hkv; cases hkv)
    (fun hd tl ph pt => by
      intro kv hkv
      rcases List.mem_cons.mp hkv with h | h
      · exact h ▸ ph
      · exact pt kv h)
    (fun k v pv => pv)

/-- splitPath never produces an empty segment. -/
theorem splitPath_not_empty (p : String) : ∀ s ∈ splitPath p, s ≠ "" := by
  intro s hs
  have := List.of_mem_filter hs
  simpa using this

/-- Reading back the key just written finds the written value. -/
theorem lookup_setField_self (fs : List (String × Node)) (h : String) (v : Node) :
    lookupField (setField fs h v) h = some v := by
  induction fs with
  | nil => simp [setField, lookupField]
  | cons kv rest ih =>
    obtain ⟨k, w⟩ := kv
    by_cases hk : k = h
    · subst hk; simp [setField, lookupField]
    · simp [setField, lookupField, hk, ih]

/-- Writing one key leaves every other key's binding unchanged. -/
theorem lookup_setField_ne (fs : List (String × Node)) (h k : String) (v : Node)
    (hne : k ≠ h) : lookupField (setField fs h v) k = lookupField fs k := by
  induction fs with
  | nil => simp [setField, lookupField, Ne.symm hne]
  | cons kv rest ih =>
    obtain ⟨k₀, w⟩ := kv
    by_cases hk : k₀ = h
    · subst hk
      simp [setField, lookupField, Ne.symm hne]
    · simp only [setField, if_neg hk, lookupField]
      by_cases hk2 : k₀ = k
      · simp [hk2]
      · simp [hk2, ih]

/-- getD after set at the same in-bounds index yields the new element. -/
theorem getD_set_self {α : Type} (l : List α) (i : Nat) (a d : α) (hlt : i < l.length) :
    (l.set i a).getD i d = a := by
  induction l generalizing i with
  | nil => simp at hlt
  | cons x xs ih =>
    cases i with
    | zero => simp [List.set, List.getD]
    | succ n =>
      simp only [List.set, List.getD_cons_succ]
      exact ih n (by simpa using hlt)

/-- getD after set at a different index is unchanged. -/
theorem getD_set_ne {α : Type} (l : List α) (i j : Nat) (a d : α) (hne : i ≠ j) :
    (l.set i a).getD j d = l.getD j d := by
  induction l generalizing i j with
  | nil => simp [List.set]
  | cons x xs ih =>
    cases i with
    | zero =>
      cases j with
      | zero => exact absurd rfl hne
      | succ m => simp [List.set]
    | succ n =>
      cases j with
      | zero => simp [List.set]
      | succ m =>
        simp only [List.set, List.getD_cons_succ]
        exact ih n m (by omega)

/-- getD inside the left part of an append reads the left list. -/
theorem getD_append_left {α : Type} (l r : List α) (i : Nat) (d : α) (hlt : i < l.length) :
    (l ++ r).getD i d = l.getD i d := by
  induction l generalizing i with
  | nil => simp at hlt
  | cons x xs ih =>
    cases i with
    | zero => simp [List.getD]
    | succ n =>
      simp only [List.cons_append, List.getD_cons_succ]
      exact ih n (by simpa using hlt)

/-- getD inside a replicate yields the replicated element. -/
theorem getD_replicate {α : Type} (n i : Nat) (a d : α) (hlt : i < n) :
    (List.replicate n a).getD i d = a := by
  induction n generalizing i with
  | zero => simp at hlt
  | succ m ih =>
    cases i with
    | zero => simp [List.replicate, List.getD]
    | succ k =>
      simp only [List.replicate, List.getD_cons_succ]
      exact ih k (by omega)

/-- getD past the left part of an append reads the right list. -/
theorem getD_append_right {α : Type} (l r : List α) (i : Nat) (d : α) (hge : l.length ≤ i) :
    (l ++ r).getD i d = r.getD (i - l.length) d := by
  induction l generalizing i with
  | nil => simp
  | cons x xs ih =>
    cases i with
    | zero => simp at hge
    | succ n =>
      simp only [List.cons_append, List.getD_cons_succ, List.length_cons]
      rw [ih n (by simpa using hge)]
      congr 1
      omega

/-- The grown array has length max(old length, index+1). -/
theorem growArr_length (a : List Node) (i : Int) (h0 : 0 ≤ i) :
    (growArr a i).length = max a.length (i.toNat + 1) := by
  unfold growArr
  split
  · simp only [List.length_append, List.length_replicate]
    omega
  · omega

/-- The index written after growth is in bounds. -/
theorem growArr_toNat_lt (a : List Node) (i : Int) (h0 : 0 ≤ i) :
    i.toNat < (growArr a i).length := by
  rw [growArr_length a i h0]
  omega

/-- Growth preserves the old entries. -/
theorem growArr_getD_old (a : List Node) (i : Int) (j : Nat) (d : Node)
    (hj : j < a.length) : (growArr a i).getD j d = a.getD j d := by
  unfold growArr
  split
  · exact getD_append_left a _ j d hj
  · rfl

/-- Newly created slots of the grown array hold null. -/
theorem growArr_getD_new (a : List Node) (i : Int) (j : Nat) (d : Node)
    (hge : a.length ≤ j) (hj : j ≤ i.toNat) (hgrow : (a.length : Int) ≤ i) :
    (growArr a i).getD j d = Node.null := by
  unfold growArr
  rw [if_pos hgrow, getD_append_right a _ j d hge, getD_replicate]
  omega

end Gjp

namespace Gjp

/-- Unfolding equation for insertValueInNode on a non-empty keys list. -/
theorem insertValueInNode_cons (node : Node) (h : String) (t : List String) (value : Node) :
    insertValueInNode node (h :: t) value =
      match node with
      | .null => createValue (h :: t) value
      | .obj fields => insertValueInObject fields (h :: t) value
      | .arr elems => insertValueInArray elems (h :: t) value
      | _ => .err .notJSON := by
  cases node <;> simp [insertValueInNode]

/-- Unfolding equation for insertValueInObject on a single key. -/
theorem insertValueInObject_one (obj : List (String × Node)) (h : String) (value : Node) :
    insertValueInObject obj [h] value =
      if isObjectOrArray (objGet obj h) then .err .corrupt
      else .ok (.obj (setField obj h value)) := by
  simp [insertValueInObject]

/-- Unfolding equation for insertValueInObject with at least two keys. -/
theorem insertValueInObject_cons (obj : List (String × Node)) (h s : String)
    (t : List String) (value : Node) :
    insertValueInObject obj (h :: s :: t) value =
      if isValue (objGet obj h) then .err .corrupt
      else
        match insertValueInNode (objGet obj h) (s :: t) value with
        | .ok newNode => .ok (.obj (setField obj h newNode))
        | .err e => .err e
        | .panic => .panic := by
  rw [insertValueInObject]
  simp

/-- Unfolding equation for insertValueInArray on a non-empty path. -/
theorem insertValueInArray_cons (arr : List Node) (h : String) (t : List String)
    (value : Node) :
    insertValueInArray arr (h :: t) value =
      match atoi h with
      | none => .err .invalidIndex
      | some i =>
        if i < 0 then .err .negativeIndex
        else
          if t.isEmpty then
            if isObjectOrArray ((growArr arr i).getD i.toNat .null) then .err .corrupt
            else .ok (.arr ((growArr arr i).set i.toNat value))
          else
            if isValue ((growArr arr i).getD i.toNat .null) then .err .corrupt
            else
              match insertValueInNode ((growArr arr i).getD i.toNat .null) t value with
              | .ok newNode => .ok (.arr ((growArr arr i).set i.toNat newNode))
              | .err e => .err e
              | .panic => .panic := by
  rw [insertValueInArray]

end Gjp

namespace Gjp

/-- A successful createValue builds a tree in which the created path
resolves to the created value (no segment may be empty). -/
theorem createValue_ok_valueAt (keys : List String) :
    ∀ (v r : Node), (∀ s ∈ keys, s ≠ "") → createValue keys v = .ok r →
      valueAt r keys = .ok v := by
  induction keys with
  | nil =>
    intro v r _ hc
    simp only [createValue] at hc
    cases hc
    rfl
  | cons h t ih =>
    intro v r hne hc
    have hh : h ≠ "" := hne h (by simp)
    have hnt : ∀ s ∈ t, s ≠ "" := fun s hs => hne s (by simp [hs])
    simp only [createValue] at hc
    cases hai : atoi h with
    | some i =>
      simp only [hai] at hc
      by_cases hi : i < 0
      · rw [if_pos hi] at hc
        exact absurd hc (by simp)
      · rw [if_neg hi] at hc
        cases hrec : createValue t v with
        | ok sub =>
          simp only [hrec] at hc
          injection hc with hc1
          subst hc1
          have hlen : ((List.replicate (i.toNat + 1) Node.null).set i.toNat sub).length
              = i.toNat + 1 := by simp
          simp only [valueAt, if_neg hh, hai, hlen]
          rw [if_neg (by omega), if_neg hi,
            getD_set_self _ _ _ _ (by simp)]
          exact ih v sub hnt hrec
        | err e => simp only [hrec] at hc; exact absurd hc (by simp)
        | panic => simp only [hrec] at hc; exact absurd hc (by simp)
    | none =>
      simp only [hai] at hc
      cases hrec : createValue t v with
      | ok sub =>
        simp only [hrec] at hc
        injection hc with hc1
        subst hc1
        simp only [valueAt, if_neg hh, lookupField, if_pos rfl]
        exact ih v sub hnt hrec
      | err e => simp only [hrec] at hc; exact absurd hc (by simp)
      | panic => simp only [hrec] at hc; exact absurd hc (by simp)

end Gjp

namespace Gjp

/-- A successful insertValueInNode yields a tree in which the written
path resolves to the written value (no segment may be empty). -/
theorem insert_ok_valueAt (keys : List String) :
    ∀ (node v r : Node), (∀ s ∈ keys, s ≠ "") → insertValueInNode node keys v = .ok r →
      valueAt r keys = .ok v := by
  induction keys with
  | nil =>
    intro node v r _ hc
    simp only [insertValueInNode] at hc
    cases hc
    rfl
  | cons h t ih =>
    intro node v r hne hc
    have hh : h ≠ "" := hne h (by simp)
    have hnt : ∀ s ∈ t, s ≠ "" := fun s hs => hne s (by simp [hs])
    cases node with
    | null =>
      rw [insertValueInNode] at hc
      exact createValue_ok_valueAt (h :: t) v r hne hc
    | bool b => simp [insertValueInNode] at hc
    | num x => simp [insertValueInNode] at hc
    | str s => simp [insertValueInNode] at hc
    | obj fields =>
      rw [insertValueInNode] at hc
      have hc2 : insertValueInObject fields (h :: t) v = .ok r := hc
      clear hc
      cases t with
      | nil =>
        rw [insertValueInObject_one] at hc2
        by_cases hoa : isObjectOrArray (objGet fields h)
        · rw [if_pos hoa] at hc2; simp at hc2
        · rw [if_neg hoa] at hc2
          injection hc2 with hc3
          subst hc3
          simp only [valueAt, if_neg hh]
          rw [lookup_setField_self]
      | cons s t2 =>
        rw [insertValueInObject_cons] at hc2
        by_cases hval : isValue (objGet fields h)
        · rw [if_pos hval] at hc2; simp at hc2
        · rw [if_neg hval] at hc2
          cases hrec : insertValueInNode (objGet fields h) (s :: t2) v with
          | ok nn =>
            simp only [hrec] at hc2
            injection hc2 with hc3
            subst hc3
            simp only [valueAt, if_neg hh]
            rw [lookup_setField_self]
            exact ih (objGet fields h) v nn hnt hrec
          | err e => simp only [hrec] at hc2; simp at hc2
          | panic => simp only [hrec] at hc2; simp at hc2
    | arr elems =>
      rw [insertValueInNode] at hc
      have hc2 : insertValueInArray elems (h :: t) v = .ok r := hc
      clear hc
      rw [insertValueInArray_cons] at hc2
      cases hai : atoi h with
      | none => simp only [hai] at hc2; simp at hc2
      | some i =>
        simp only [hai] at hc2
        by_cases hi : i < 0
        · rw [if_pos hi] at hc2; simp at hc2
        · rw [if_neg hi] at hc2
          have hi0 : 0 ≤ i := by omega
          have hlt : i.toNat < (growArr elems i).length := growArr_toNat_lt elems i hi0
          cases t with
          | nil =>
            simp only [List.isEmpty_nil, if_true] at hc2
            by_cases hoa : isObjectOrArray ((growArr elems i).getD i.toNat .null)
            · rw [if_pos hoa] at hc2; simp at hc2
            · rw [if_neg hoa] at hc2
              injection hc2 with hc3
              subst hc3
              have hlen : ¬ ((((growArr elems i).set i.toNat v).length : Int) ≤ i) := by
                rw [List.length_set, growArr_length elems i hi0]
                omega
              simp only [valueAt, if_neg hh, hai, if_neg hlen, if_neg hi]
              rw [getD_set_self _ _ _ _ hlt]
          | cons s t2 =>
            simp only [List.isEmpty_cons, if_false] at hc2
            by_cases hval : isValue ((growArr elems i).getD i.toNat .null)
            · rw [if_pos hval] at hc2; simp at hc2
            · rw [if_neg hval] at hc2
              cases hrec : insertValueInNode ((growArr elems i).getD i.toNat .null) (s :: t2) v with
              | ok nn =>
                simp only [hrec] at hc2
                injection hc2 with hc3
                subst hc3
                have hlen : ¬ ((((growArr elems i).set i.toNat nn).length : Int) ≤ i) := by
                  rw [List.length_set, growArr_length elems i hi0]
                  omega
                simp only [valueAt, if_neg hh, hai, if_neg hlen, if_neg hi]
                rw [getD_set_self _ _ _ _ hlt]
                exact ih _ v nn hnt hrec
              | err e => simp only [hrec] at hc2; simp at hc2
              | panic => simp only [hrec] at hc2; simp at hc2

end Gjp

namespace Gjp

/-- C1: for every document, path and leaf value, if SetValueAt succeeds
then ValueAt on the resulting document resolves to that value; on an
empty document the root path replaces the whole document root, so
SetValueAt "" v followed by ValueAt "" returns v. -/
theorem C1_set_then_get (d : Document) (p : String) (v : Node) (d2 : Document)
    (hset : d.SetValueAt p v = .ok d2) : d2.ValueAt p = some ⟨v, false⟩ := by
  unfold Document.SetValueAt at hset
  cases hins : insertValueInNode d.root (splitPath p) v with
  | ok r =>
    simp only [hins] at hset
    injection hset with hd
    subst hd
    unfold Document.ValueAt
    rw [insert_ok_valueAt (splitPath p) d.root v r (splitPath_not_empty p) hins]
  | err e => simp only [hins] at hset; cases hset
  | panic => simp only [hins] at hset; cases hset

/-- C1 witness: on the empty document, setting "foo" at the root path and
reading the root path back yields "foo". -/
theorem C1_set_then_get_witness :
    Document.SetValueAt ⟨.null⟩ "" (.str "foo") = .ok ⟨.str "foo"⟩ ∧
      Document.ValueAt ⟨.str "foo"⟩ "" = some ⟨.str "foo", false⟩ := by
  have hset : Document.SetValueAt ⟨.null⟩ "" (.str "foo") = .ok ⟨.str "foo"⟩ := by
    simp [Document.SetValueAt, show splitPath "" = [] from rfl, insertValueInNode]
  exact ⟨hset, C1_set_then_get ⟨.null⟩ "" (.str "foo") ⟨.str "foo"⟩ hset⟩

end Gjp

namespace Gjp

/-- Resolution succeeding through a non-empty segment means the node is a
container. -/
theorem valueAt_ok_container (n : Node) (x : String) (xs : List String) (w : Node)
    (hx : x ≠ "") (h : valueAt n (x :: xs) = .ok w) : isObjectOrArray n = true := by
  cases n
  case obj => rfl
  case arr => rfl
  all_goals simp [valueAt, hx] at h

/-- A container is not a scalar value. -/
theorem isValue_of_container (n : Node) (h : isObjectOrArray n = true) :
    isValue n = false := by
  cases n <;> simp_all [isObjectOrArray, isValue]

/-- Without growth the grown array is the original one. -/
theorem growArr_eq_self (a : List Node) (i : Int) (h : ¬ ((a.length : Int) ≤ i)) :
    growArr a i = a := by
  unfold growArr
  rw [if_neg h]

/-- Writing a value at a path whose full resolution yields a container
fails with the corruption error. -/
theorem insert_final_container (keys : List String) :
    ∀ (node w v : Node), (∀ s ∈ keys, s ≠ "") → keys ≠ [] →
      valueAt node keys = .ok w → isObjectOrArray w = true →
      insertValueInNode node keys v = .err .corrupt := by
  induction keys with
  | nil => intro node w v _ hk _ _; exact absurd rfl hk
  | cons h t ih =>
    intro node w v hne _ hres hw
    have hh : h ≠ "" := hne h (by simp)
    have hnt : ∀ s ∈ t, s ≠ "" := fun s hs => hne s (by simp [hs])
    cases node with
    | null => simp [valueAt, hh] at hres
    | bool b => simp [valueAt, hh] at hres
    | num x => simp [valueAt, hh] at hres
    | str s => simp [valueAt, hh] at hres
    | obj fields =>
      simp only [valueAt, if_neg hh] at hres
      cases hlk : lookupField fields h with
      | none => simp only [hlk] at hres; cases hres
      | some field =>
        simp only [hlk] at hres
        have hget : objGet fields h = field := by simp [objGet, hlk]
        rw [insertValueInNode]
        cases t with
        | nil =>
          rw [insertValueInObject_one, hget]
          have : field = w := by
            have : valueAt field [] = .ok w := hres
            simpa [valueAt] using this
          rw [this, if_pos hw]
        | cons s t2 =>
          rw [insertValueInObject_cons, hget]
          have hs : s ≠ "" := hnt s (by simp)
          have hcont : isObjectOrArray field = true :=
            valueAt_ok_container field s t2 w hs hres
          rw [isValue_of_container field hcont, ih field w v hnt (by simp) hres hw]
          simp
    | arr elems =>
      simp only [valueAt, if_neg hh] at hres
      cases hai : atoi h with
      | none => simp only [hai] at hres; cases hres
      | some i =>
        simp only [hai] at hres
        by_cases hlen : (elems.length : Int) ≤ i
        · rw [if_pos hlen] at hres; cases hres
        · rw [if_neg hlen] at hres
          by_cases hi : i < 0
          · rw [if_pos hi] at hres; cases hres
          · rw [if_neg hi] at hres
            rw [insertValueInNode, insertValueInArray_cons]
            simp only [hai, if_neg hi, growArr_eq_self elems i hlen]
            cases t with
            | nil =>
              have : elems.getD i.toNat .null = w := by
                have : valueAt (elems.getD i.toNat .null) [] = .ok w := hres
                simpa [valueAt] using this
              simp only [List.isEmpty_nil, if_true, this, if_pos hw]
            | cons s t2 =>
              have hs : s ≠ "" := hnt s (by simp)
              have hcont : isObjectOrArray (elems.getD i.toNat .null) = true :=
                valueAt_ok_container _ s t2 w hs hres
              simp only [List.isEmpty_cons, if_false]
              rw [isValue_of_container _ hcont, ih _ w v hnt (by simp) hres hw]
              simp

end Gjp

namespace Gjp

/-- Descending through a segment whose occupant is a non-null scalar
fails with the corruption error: if the prefix up to some segment
resolves to a scalar and path segments remain beyond it, the insert is
rejected. -/
theorem insert_through_leaf (pre : List String) :
    ∀ (node : Node) (h : String) (rest : List String) (w v : Node),
      (∀ s ∈ pre ++ h :: rest, s ≠ "") → rest ≠ [] →
      valueAt node (pre ++ [h]) = .ok w → isValue w = true →
      insertValueInNode node (pre ++ h :: rest) v = .err .corrupt := by
  induction pre with
  | nil =>
    intro node h rest w v hne hrest hres hw
    have hh : h ≠ "" := hne h (by simp)
    simp only [List.nil_append] at hres ⊢
    obtain ⟨r0, rs, hr⟩ := List.exists_cons_of_ne_nil hrest
    subst hr
    cases node with
    | null => simp [valueAt, hh] at hres
    | bool b => simp [valueAt, hh] at hres
    | num x => simp [valueAt, hh] at hres
    | str s => simp [valueAt, hh] at hres
    | obj fields =>
      simp only [valueAt, if_neg hh] at hres
      cases hlk : lookupField fields h with
      | none => simp only [hlk] at hres; cases hres
      | some field =>
        simp only [hlk] at hres
        have hfw : field = w := by simpa [valueAt] using hres
        have hget : objGet fields h = field := by simp [objGet, hlk]
        rw [insertValueInNode, insertValueInObject_cons, hget, hfw, hw]
        simp
    | arr elems =>
      simp only [valueAt, if_neg hh] at hres
      cases hai : atoi h with
      | none => simp only [hai] at hres; cases hres
      | some i =>
        simp only [hai] at hres
        by_cases hlen : (elems.length : Int) ≤ i
        · rw [if_pos hlen] at hres; cases hres
        · rw [if_neg hlen] at hres
          by_cases hi : i < 0
          · rw [if_pos hi] at hres; cases hres
          · rw [if_neg hi] at hres
            have hgw : elems.getD i.toNat .null = w := by simpa [valueAt] using hres
            rw [insertValueInNode, insertValueInArray_cons]
            simp only [hai, if_neg hi, growArr_eq_self elems i hlen, List.isEmpty_cons,
              if_false, hgw, hw]
            simp
  | cons p0 pre2 ih =>
    intro node h rest w v hne hrest hres hw
    have hp0 : p0 ≠ "" := hne p0 (by simp)
    have hne2 : ∀ s ∈ pre2 ++ h :: rest, s ≠ "" := fun s hs => hne s (by simp [hs])
    simp only [List.cons_append] at hres ⊢
    have hhd : ∃ y0 ys, pre2 ++ [h] = y0 :: ys ∧ y0 ≠ "" := by
      cases pre2 with
      | nil => exact ⟨h, [], rfl, hne h (by simp)⟩
      | cons a b => exact ⟨a, b ++ [h], by simp, hne a (by simp)⟩
    cases node with
    | null => simp [valueAt, hp0] at hres
    | bool b => simp [valueAt, hp0] at hres
    | num x => simp [valueAt, hp0] at hres
    | str s => simp [valueAt, hp0] at hres
    | obj fields =>
      simp only [valueAt, if_neg hp0] at hres
      cases hlk : lookupField fields p0 with
      | none => simp only [hlk] at hres; cases hres
      | some field =>
        simp only [hlk] at hres
        have hget : objGet fields p0 = field := by simp [objGet, hlk]
        have hcont : isObjectOrArray field = true := by
          obtain ⟨y0, ys, hy, hy0⟩ := hhd
          rw [hy] at hres
          exact valueAt_ok_container field y0 ys w hy0 hres
        rw [insertValueInNode]
        obtain ⟨x0, xs, hx⟩ : ∃ x0 xs, pre2 ++ h :: rest = x0 :: xs := by
          cases pre2 with
          | nil => exact ⟨h, rest, rfl⟩
          | cons a b => exact ⟨a, b ++ h :: rest, by simp⟩
        rw [hx, insertValueInObject_cons, hget, isValue_of_container field hcont]
        rw [← hx, ih field h rest w v hne2 hrest hres hw]
        simp
    | arr elems =>
      simp only [valueAt, if_neg hp0] at hres
      cases hai : atoi p0 with
      | none => simp only [hai] at hres; cases hres
      | some i =>
        simp only [hai] at hres
        by_cases hlen : (elems.length : Int) ≤ i
        · rw [if_pos hlen] at hres; cases hres
        · rw [if_neg hlen] at hres
          by_cases hi : i < 0
          · rw [if_pos hi] at hres; cases hres
          · rw [if_neg hi] at hres
            have hcont : isObjectOrArray (elems.getD i.toNat .null) = true := by
              obtain ⟨y0, ys, hy, hy0⟩ := hhd
              rw [hy] at hres
              exact valueAt_ok_container _ y0 ys w hy0 hres
            rw [insertValueInNode, insertValueInArray_cons]
            simp only [hai, if_neg hi, growArr_eq_self elems i hlen]
            rw [if_neg (show ¬ ((pre2 ++ h :: rest).isEmpty = true) by cases pre2 <;> simp)]
            rw [isValue_of_container _ hcont, ih _ h rest w v hne2 hrest hres hw]
            simp

end Gjp

namespace Gjp

/-- C2: SetValueAt preserves the container/leaf structure: writing at a
final segment whose current occupant is a container fails with the
corruption error, and descending through a segment whose current occupant
is a non-null leaf fails with the corruption error; the functional model
returns the old tree untouched on failure. -/
theorem C2_set_never_corrupts (d : Document) (p : String) (v : Node) :
    (∀ w, splitPath p ≠ [] → valueAt d.root (splitPath p) = .ok w →
      isObjectOrArray w = true → d.SetValueAt p v = .err .corrupt) ∧
    (∀ pre h rest w, splitPath p = pre ++ h :: rest → rest ≠ [] →
      valueAt d.root (pre ++ [h]) = .ok w → isValue w = true →
      d.SetValueAt p v = .err .corrupt) := by
  constructor
  · intro w hne hres hw
    unfold Document.SetValueAt
    rw [insert_final_container (splitPath p) d.root w v (splitPath_not_empty p) hne hres hw]
  · intro pre h rest w hsplit hrest hres hw
    unfold Document.SetValueAt
    rw [hsplit, insert_through_leaf pre d.root h rest w v
      (by rw [← hsplit]; exact splitPath_not_empty p) hrest hres hw]

/-- C2 witness: on the document {"a": {"b": 1}}, overwriting the object
at /a fails with corruption, and writing below the leaf at /a/b fails
with corruption. -/
theorem C2_set_never_corrupts_witness :
    Document.SetValueAt ⟨.obj [("a", .obj [("b", .num 1)])]⟩ "/a" (.num 5) = .err .corrupt ∧
      Document.SetValueAt ⟨.obj [("a", .obj [("b", .num 1)])]⟩ "/a/b/c" (.num 5)
        = .err .corrupt := by
  constructor
  · exact (C2_set_never_corrupts ⟨.obj [("a", .obj [("b", .num 1)])]⟩ "/a" (.num 5)).1
      (.obj [("b", .num 1)]) (by simp [splitPath, splitRaw, sepChar]) rfl rfl
  · exact (C2_set_never_corrupts ⟨.obj [("a", .obj [("b", .num 1)])]⟩ "/a/b/c" (.num 5)).2
      ["a"] "b" ["c"] (.num 1) rfl (by simp) rfl rfl

end Gjp

namespace Gjp

/-- C3: contrary to the claim that resolution is total and returns an
InvalidPath failure for any out-of-range index, a segment parsing as a
negative integer passes the `index >= len` guard and panics on the
negative slice index: resolving segment "-1" against the one-element
array [1] crashes instead of failing (ValueAt at the path with single
segment "-1"). -/
theorem C3_valueAt_negative_index_panics :
    valueAt (.arr [.num 1]) ["-1"] = .panic ∧
      Document.ValueAt ⟨.arr [.num 1]⟩ "/-1" = none := ⟨rfl, rfl⟩

/-- C3 positive part: on an array, a non-numeric segment and an index at
or past the length fail with the invalid-path error, and a leaf with
segments remaining fails with the path-too-long error. -/
theorem C3_valueAt_failure_kinds (xs : List Node) (h : String) (t : List String)
    (hh : h ≠ "") :
    (atoi h = none → valueAt (.arr xs) (h :: t) = .err .invalidPath) ∧
    (∀ i : Int, atoi h = some i → (xs.length : Int) ≤ i →
      valueAt (.arr xs) (h :: t) = .err .invalidPath) ∧
    (∀ x : Int, valueAt (.num x) (h :: t) = .err .pathTooLong) ∧
    (∀ s : String, valueAt (.str s) (h :: t) = .err .pathTooLong) ∧
    (∀ b : Bool, valueAt (.bool b) (h :: t) = .err .pathTooLong) := by
  refine ⟨?_, ?_, ?_, ?_, ?_⟩
  · intro hai
    simp [valueAt, if_neg hh, hai]
  · intro i hai hge
    simp [valueAt, if_neg hh, hai, if_pos hge]
  · intro x; simp [valueAt, if_neg hh]
  · intro s; simp [valueAt, if_neg hh]
  · intro b; simp [valueAt, if_neg hh]

/-- C3 positive part witness. -/
theorem C3_valueAt_failure_kinds_witness :
    valueAt (.arr [.num 1]) ["x"] = .err .invalidPath ∧
      valueAt (.arr [.num 1]) ["1"] = .err .invalidPath ∧
      valueAt (.num 3) ["a"] = .err .pathTooLong := by
  refine ⟨?_, ?_, ?_⟩
  · exact (C3_valueAt_failure_kinds [.num 1] "x" [] (by simp)).1 rfl
  · exact (C3_valueAt_failure_kinds [.num 1] "1" [] (by simp)).2.1 1 rfl (by simp)
  · exact (C3_valueAt_failure_kinds [.num 1] "a" [] (by simp)).2.2.1 3

/-- C4: contrary to the claim that a negative index segment always yields
the NegativeIndex failure, only insertValueInArray checks the sign;
createValue does not, so setting at the path with single segment "-1" on
the empty document panics (make/index crash) instead of failing. -/
theorem C4_create_negative_index_panics :
    createValue ["-1"] (.str "x") = .panic ∧
      Document.SetValueAt ⟨.null⟩ "/-1" (.str "x") = .panic := by
  constructor
  · rfl
  · have hins : insertValueInNode .null ["-1"] (.str "x") = .panic := by
      rw [insertValueInNode]
      rfl
    simp [Document.SetValueAt, show splitPath "/-1" = ["-1"] from rfl, hins]

/-- C4 positive part: on an existing array, a negative index segment does
fail with the NegativeIndex error. -/
theorem C4_array_negative_index_fails (arr : List Node) (h : String) (t : List String)
    (value : Node) (i : Int) (hai : atoi h = some i) (hi : i < 0) :
    insertValueInArray arr (h :: t) value = .err .negativeIndex := by
  rw [insertValueInArray_cons]
  simp only [hai, if_pos hi]

/-- C4 positive part witness: setting "x" below /a/d at index segment
"-1" on {"a":{"d":[0]}} fails with NegativeIndex. -/
theorem C4_array_negative_index_fails_witness :
    insertValueInArray [.num 0] ["-1"] (.str "x") = .err .negativeIndex ∧
      Document.SetValueAt ⟨.obj [("a", .obj [("d", .arr [.num 0])])]⟩ "/a/d/-1" (.str "x")
        = .err .negativeIndex := by
  constructor
  · exact C4_array_negative_index_fails [.num 0] "-1" [] (.str "x") (-1) rfl (by omega)
  · simp [Document.SetValueAt, show splitPath "/a/d/-1" = ["a", "d", "-1"] from rfl,
      insertValueInNode, insertValueInObject_cons, objGet, lookupField, isValue,
      C4_array_negative_index_fails [.num 0] "-1" [] (.str "x") (-1) rfl (by omega)]

/-- C8: Length maps a resolution failure to the sentinel -1, counts
container entries and returns 1 for leaves, but contrary to the claim it
is not total: the negative-index panic of valueAt escapes Length, so
Length at the path with single segment "-1" on the array [1] crashes
instead of returning. -/
theorem C8_length_panics_on_negative_index :
    Document.Length ⟨.arr [.num 1]⟩ "/-1" = none := rfl

/-- C8 positive part: whenever resolution does not panic, Length returns
the entry count of a resolved container, 1 for a resolved leaf, and -1
for a failed resolution; it never returns an error. -/
theorem C8_length_cases (d : Document) (p : String) :
    (∀ fields, valueAt d.root (splitPath p) = .ok (.obj fields) →
      d.Length p = some (fields.length : Int)) ∧
    (∀ elems, valueAt d.root (splitPath p) = .ok (.arr elems) →
      d.Length p = some (elems.length : Int)) ∧
    (∀ w, valueAt d.root (splitPath p) = .ok w → isObjectOrArray w = false →
      d.Length p = some 1) ∧
    (∀ e, valueAt d.root (splitPath p) = .err e → d.Length p = some (-1)) := by
  refine ⟨?_, ?_, ?_, ?_⟩
  · intro fields hres
    unfold Document.Length
    rw [hres]
  · intro elems hres
    unfold Document.Length
    rw [hres]
  · intro w hres hw
    unfold Document.Length
    rw [hres]
    cases w <;> simp_all [isObjectOrArray]
  · intro e hres
    unfold Document.Length
    rw [hres]

/-- C8 positive part witness. -/
theorem C8_length_cases_witness :
    Document.Length ⟨.obj [("a", .arr [.num 1, .num 2])]⟩ "/a" = some 2 ∧
      Document.Length ⟨.obj [("a", .arr [.num 1, .num 2])]⟩ "/a/0" = some 1 ∧
      Document.Length ⟨.obj [("a", .arr [.num 1, .num 2])]⟩ "/b" = some (-1) := by
  refine ⟨?_, ?_, ?_⟩
  · exact (C8_length_cases ⟨.obj [("a", .arr [.num 1, .num 2])]⟩ "/a").2.1
      [.num 1, .num 2] rfl
  · exact (C8_length_cases ⟨.obj [("a", .arr [.num 1, .num 2])]⟩ "/a/0").2.2.1
      (.num 1) rfl rfl
  · exact (C8_length_cases ⟨.obj [("a", .arr [.num 1, .num 2])]⟩ "/b").2.2.2
      .invalidPath rfl

end Gjp

namespace Gjp

/-- Setting the last slot of a replicate block turns it into the block
one shorter followed by the element. -/
theorem replicate_set_last {α : Type} (k : Nat) (d v : α) :
    (List.replicate (k + 1) d).set k v = List.replicate k d ++ [v] := by
  induction k with
  | zero => rfl
  | succ m ih =>
    rw [List.replicate_succ, List.set, ih]
    simp [List.replicate_succ]

/-- Setting an index past the first part of an append writes into the
second part. -/
theorem set_append_right {α : Type} (l₁ l₂ : List α) (n : Nat) (a : α)
    (h : l₁.length ≤ n) : (l₁ ++ l₂).set n a = l₁ ++ l₂.set (n - l₁.length) a := by
  induction l₁ generalizing n with
  | nil => simp
  | cons x xs ih =>
    cases n with
    | zero => simp at h
    | succ m =>
      simp only [List.cons_append, List.set, List.length_cons, List.append_eq]
      rw [ih m (by simpa using h)]
      have heq : m + 1 - (xs.length + 1) = m - xs.length := by omega
      rw [heq]

/-- C5 counterexample: on the document {"a": [7]} (an array at /a
shorter than 6), SetValueAt at /a/5 succeeds but the resulting array
holds the original entry 7 at index 0, not null as the claim states. -/
theorem C5_counterexample :
    Document.SetValueAt ⟨.obj [("a", .arr [.num 7])]⟩ "/a/5" (.str "x")
        = .ok ⟨.obj [("a", .arr [.num 7, .null, .null, .null, .null, .str "x"])]⟩ ∧
      valueAt (Node.obj [("a", .arr [.num 7, .null, .null, .null, .null, .str "x"])])
          ["a", "0"] = .ok (.num 7) ∧
      Node.num 7 ≠ Node.null := by
  refine ⟨?_, rfl, fun h => Node.noConfusion h⟩
  simp [Document.SetValueAt, insertValueInNode, insertValueInObject, insertValueInArray,
    createValue, splitPath, splitRaw, atoi, sepChar, digitsToNat, digitsToNatAux, objGet,
    lookupField, isValue, isObjectOrArray, setField, growArr, List.getD]

/-- C5 amended: writing at index i of an array not longer than i always
succeeds, growing the array to length i+1 with the old entries preserved,
null in every newly created slot and the value at index i; in particular
SetValueAt at /a/5 on a document where /a is absent (or null) yields an
array of six slots with null at indices 0 through 4, and on a document
where /a is an array shorter than 6 it preserves the existing entries and
fills only the new slots with null. -/
theorem C5_array_growth :
    (∀ (xs : List Node) (s : String) (i : Int) (v : Node),
      atoi s = some i → 0 ≤ i → (xs.length : Int) ≤ i →
      insertValueInArray xs [s] v
        = .ok (.arr (xs ++ List.replicate (i.toNat - xs.length) .null ++ [v]))) ∧
    (∀ v : Node, Document.SetValueAt ⟨.null⟩ "/a/5" v
      = .ok ⟨.obj [("a", .arr [.null, .null, .null, .null, .null, v])]⟩) ∧
    (∀ (fs : List (String × Node)) (v : Node), objGet fs "a" = .null →
      Document.SetValueAt ⟨.obj fs⟩ "/a/5" v
        = .ok ⟨.obj (setField fs "a" (.arr [.null, .null, .null, .null, .null, v]))⟩) ∧
    (∀ (fs : List (String × Node)) (xs : List Node) (v : Node),
      objGet fs "a" = .arr xs → xs.length < 6 →
      Document.SetValueAt ⟨.obj fs⟩ "/a/5" v
        = .ok ⟨.obj (setField fs "a"
            (.arr (xs ++ List.replicate (5 - xs.length) .null ++ [v])))⟩) := by
  have hgrow : ∀ (xs : List Node) (s : String) (i : Int) (v : Node),
      atoi s = some i → 0 ≤ i → (xs.length : Int) ≤ i →
      insertValueInArray xs [s] v
        = .ok (.arr (xs ++ List.replicate (i.toNat - xs.length) .null ++ [v])) := by
    intro xs s i v hai hi0 hlen
    rw [insertValueInArray_cons]
    simp only [hai, if_neg (by omega : ¬ i < 0), List.isEmpty_nil, if_true]
    have hlen2 : xs.length ≤ i.toNat := by omega
    rw [show growArr xs i = xs ++ List.replicate (i.toNat + 1 - xs.length) Node.null by
      unfold growArr; rw [if_pos hlen]]
    rw [getD_append_right _ _ _ _ hlen2, getD_replicate _ _ _ _ (by omega)]
    rw [if_neg (by simp [isObjectOrArray])]
    rw [set_append_right _ _ _ _ hlen2]
    rw [show i.toNat + 1 - xs.length = (i.toNat - xs.length) + 1 by omega]
    rw [replicate_set_last]
    simp
  refine ⟨hgrow, ?_, ?_, ?_⟩
  · intro v
    have hins : insertValueInNode .null ["a", "5"] v
        = .ok (.obj [("a", .arr [.null, .null, .null, .null, .null, v])]) := by
      rw [insertValueInNode]
      rfl
    simp [Document.SetValueAt, show splitPath "/a/5" = ["a", "5"] from rfl, hins]
  · intro fs v hget
    have hins5 : insertValueInNode .null ["5"] v
        = .ok (.arr [.null, .null, .null, .null, .null, v]) := by
      rw [insertValueInNode]
      rfl
    have hins : insertValueInNode (.obj fs) ["a", "5"] v
        = .ok (.obj (setField fs "a" (.arr [.null, .null, .null, .null, .null, v]))) := by
      rw [insertValueInNode, insertValueInObject_cons, hget]
      simp only [isValue, Bool.false_eq_true, if_false, hins5]
    simp [Document.SetValueAt, show splitPath "/a/5" = ["a", "5"] from rfl, hins]
  · intro fs xs v hget hlen
    have harr : insertValueInArray xs ["5"] v
        = .ok (.arr (xs ++ List.replicate (5 - xs.length) .null ++ [v])) := by
      have := hgrow xs "5" 5 v rfl (by omega) (by exact_mod_cast by omega)
      simpa using this
    have hins : insertValueInNode (.obj fs) ["a", "5"] v
        = .ok (.obj (setField fs "a"
            (.arr (xs ++ List.replicate (5 - xs.length) .null ++ [v])))) := by
      rw [insertValueInNode, insertValueInObject_cons, hget]
      simp only [isValue, Bool.false_eq_true, if_false]
      rw [insertValueInNode]
      simp only [harr]
    simp [Document.SetValueAt, show splitPath "/a/5" = ["a", "5"] from rfl, hins]

/-- C5 amended witness: growing the singleton array [7] by writing "x"
at index 5 yields [7, null, null, null, null, "x"]. -/
theorem C5_array_growth_witness :
    insertValueInArray [.num 7] ["5"] (.str "x")
        = .ok (.arr [.num 7, .null, .null, .null, .null, .str "x"]) ∧
      Document.SetValueAt ⟨.null⟩ "/a/5" (.str "x")
        = .ok ⟨.obj [("a", .arr [.null, .null, .null, .null, .null, .str "x"])]⟩ := by
  constructor
  · have := C5_array_growth.1 [.num 7] "5" 5 (.str "x") rfl (by omega) (by simp)
    simpa using this
  · exact C5_array_growth.2.1 (.str "x")

end Gjp

namespace Gjp

/-- rangeFields errors exactly when some immediate field is a container,
and otherwise visits every field once, in order. -/
theorem rangeFields_spec (path : String) (fs : List (String × Node)) :
    rangeFields path fs =
      if fs.any (fun kv => isObjectOrArray kv.2) then .err .containerChild
      else .ok (fs.map (fun kv => (path ++ "/" ++ kv.1, kv.2))) := by
  induction fs with
  | nil => rfl
  | cons kv rest ih =>
    obtain ⟨k, sub⟩ := kv
    by_cases hoa : isObjectOrArray sub
    · simp [rangeFields, hoa]
    · cases hany : rest.any (fun kv => isObjectOrArray kv.2) with
      | true => simp [rangeFields, hoa, ih, hany]
      | false => simp [rangeFields, hoa, ih, hany]

/-- rangeElems errors exactly when some immediate element is a container,
and otherwise visits every element once, in index order. -/
theorem rangeElems_spec (path : String) (idx : Nat) (xs : List Node) :
    rangeElems path idx xs =
      if xs.any isObjectOrArray then .err .containerChild
      else .ok ((List.enumFrom idx xs).map (fun p => (path ++ "/" ++ itoa p.1, p.2))) := by
  induction xs generalizing idx with
  | nil => rfl
  | cons x rest ih =>
    by_cases hoa : isObjectOrArray x
    · simp [rangeElems, hoa]
    · cases hany : rest.any isObjectOrArray with
      | true => simp [rangeElems, hoa, ih, hany]
      | false => simp [rangeElems, hoa, ih, hany, List.enumFrom]

/-- C9 positive part: when the path resolves to a container, Range fails
exactly when some immediate child is itself an object or array, and
otherwise invokes the visitor once per immediate child; when the path
resolves to a leaf it invokes the visitor exactly once with that leaf;
when resolution fails with an error, that failure is propagated as the
Range error. -/
theorem C9_range_single_level (d : Document) (p : String) :
    (∀ fields, valueAt d.root (splitPath p) = .ok (.obj fields) →
      d.Range p =
        if fields.any (fun kv => isObjectOrArray kv.2) then .err .containerChild
        else .ok (fields.map (fun kv => (p ++ "/" ++ kv.1, kv.2)))) ∧
    (∀ elems, valueAt d.root (splitPath p) = .ok (.arr elems) →
      d.Range p =
        if elems.any isObjectOrArray then .err .containerChild
        else .ok ((List.enumFrom 0 elems).map (fun q => (p ++ "/" ++ itoa q.1, q.2)))) ∧
    (∀ w, valueAt d.root (splitPath p) = .ok w → isObjectOrArray w = false →
      d.Range p = .ok [(p, w)]) ∧
    (∀ e, valueAt d.root (splitPath p) = .err e → d.Range p = .err e) := by
  refine ⟨?_, ?_, ?_, ?_⟩
  · intro fields hres
    unfold Document.Range
    rw [hres]
    exact rangeFields_spec p fields
  · intro elems hres
    unfold Document.Range
    rw [hres]
    exact rangeElems_spec p 0 elems
  · intro w hres hw
    unfold Document.Range
    rw [hres]
    cases w <;> simp_all [isObjectOrArray]
  · intro e hres
    unfold Document.Range
    rw [hres]

/-- C9 positive part witness: ranging over {"b": 1} at /a visits its
single leaf child,
ranging over an object with a container child fails, ranging at a leaf
path visits the leaf once, and ranging at an unresolved path fails with
the propagated invalid-path error. -/
theorem C9_range_single_level_witness :
    Document.Range ⟨.obj [("a", .obj [("b", .num 1)])]⟩ "/a" = .ok [("/a/b", .num 1)] ∧
      Document.Range ⟨.obj [("a", .obj [("b", .obj [])])]⟩ "/a" = .err .containerChild ∧
      Document.Range ⟨.obj [("a", .num 1)]⟩ "/a" = .ok [("/a", .num 1)] ∧
      Document.Range ⟨.obj [("a", .num 1)]⟩ "/zz" = .err .invalidPath := by
  refine ⟨?_, ?_, ?_, ?_⟩
  · have := (C9_range_single_level ⟨.obj [("a", .obj [("b", .num 1)])]⟩ "/a").1
      [("b", .num 1)] rfl
    simpa using this
  · have := (C9_range_single_level ⟨.obj [("a", .obj [("b", .obj [])])]⟩ "/a").1
      [("b", .obj [])] rfl
    simpa using this
  · exact (C9_range_single_level ⟨.obj [("a", .num 1)]⟩ "/a").2.2.1 (.num 1) rfl rfl
  · exact (C9_range_single_level ⟨.obj [("a", .num 1)]⟩ "/zz").2.2.2 .invalidPath rfl

end Gjp

namespace Gjp

/-- deepEqual against null holds only for null. -/
theorem deepEqual_null_right (n : Node) : deepEqual n .null = isNull n := by
  cases n <;> rfl

/-- Equals on two resolved values is deep structural equality, with a
null leaf equal only to a null leaf. -/
theorem equals_ok_ok (n w : Node) :
    PathValue.Equals ⟨n, false⟩ ⟨w, false⟩ = deepEqual n w := by
  cases n <;> cases w <;>
    simp [PathValue.Equals, PathValue.IsUndefined, isNull, deepEqual]

/-- Equals between a resolved value and a failed lookup is always false:
an unresolved path is not equal to anything, not even a null leaf. -/
theorem equals_ok_err (n : Node) :
    PathValue.Equals ⟨n, false⟩ ⟨.null, true⟩ = false := by
  cases n <;> simp [PathValue.Equals, PathValue.IsUndefined, isNull, deepEqual]

/-- The Equals test performed by the first diff pass agrees with the
recording condition of the claim. -/
theorem valueAt_equals_recorded (second : Document) (p : String) (n : Node)
    (pv : PathValue) (hval : second.ValueAt p = some pv) :
    PathValue.Equals ⟨n, false⟩ pv = !(recordedInPass1 second p n) := by
  unfold Document.ValueAt at hval
  unfold recordedInPass1
  cases hres : valueAt second.root (splitPath p) with
  | ok w =>
    simp only [hres] at hval ⊢
    injection hval with hpv
    subst hpv
    rw [equals_ok_ok, Bool.not_not]
  | err e =>
    simp only [hres] at hval ⊢
    injection hval with hpv
    subst hpv
    rw [equals_ok_err]
    rfl
  | panic => simp only [hres] at hval; cases hval

/-- The first pass of the diff records, in visitation order, exactly the
visited paths whose recording condition holds. -/
theorem comparePass1_spec (second : Document) (pvs : List (String × Node)) :
    ∀ l, comparePass1 second pvs = some l →
      l = (pvs.filter (fun pn => recordedInPass1 second pn.1 pn.2)).map Prod.fst := by
  induction pvs with
  | nil =>
    intro l hl
    simp only [comparePass1] at hl
    injection hl with hl
    subst hl
    rfl
  | cons pn rest ih =>
    intro l hl
    obtain ⟨p, n⟩ := pn
    simp only [comparePass1] at hl
    cases hval : second.ValueAt p with
    | none => rw [hval] at hl; cases hl
    | some pv =>
      rw [hval] at hl
      cases hrec : comparePass1 second rest with
      | none => rw [hrec] at hl; cases hl
      | some l2 =>
        rw [hrec] at hl
        injection hl with hl
        subst hl
        rw [valueAt_equals_recorded second p n pv hval]
        cases hr : recordedInPass1 second p n with
        | true => simp [List.filter_cons, hr, ih l2 hrec]
        | false => simp [List.filter_cons, hr, ih l2 hrec]

/-- C6 amended: whenever Compare completes, its result is the visitation
ordered list of first-document paths whose recording condition holds
(resolution in the second document fails, or yields a value differing by
deep structural equality, unresolved not equal to a null leaf), followed
by the second-document paths not visited in the first document; and
provided the visited paths of each document are pairwise distinct (as
they are whenever no object key contains the separator), every recorded
path appears exactly once. -/
theorem C6_diff_characterization (A B : Document) (L : List String)
    (hc : Diff.compare A B = some L) :
    L = ((visitedPVs A).filter (fun pn => recordedInPass1 B pn.1 pn.2)).map Prod.fst
        ++ (visitedPaths B).filter (fun q => !((visitedPaths A).contains q)) ∧
      ((visitedPaths A).Nodup → (visitedPaths B).Nodup → L.Nodup) := by
  unfold Diff.compare at hc
  cases hp1 : comparePass1 B (visitedPVs A) with
  | none => rw [hp1] at hc; cases hc
  | some l1 =>
    rw [hp1] at hc
    injection hc with hc
    subst hc
    have hl1 := comparePass1_spec B (visitedPVs A) l1 hp1
    constructor
    · rw [hl1]
    · intro hA hB
      rw [List.nodup_append]
      refine ⟨?_, ?_, ?_⟩
      · rw [hl1]
        exact ((List.filter_sublist (visitedPVs A)).map Prod.fst).nodup hA
      · exact (List.filter_sublist (visitedPaths B)).nodup hB
      · intro q hq1 hq2
        have hmemA : q ∈ visitedPaths A := by
          rw [hl1] at hq1
          rcases List.mem_map.mp hq1 with ⟨pn, hpn, hq⟩
          subst hq
          exact List.mem_map_of_mem Prod.fst (List.mem_of_mem_filter hpn)
        have hfalse := List.of_mem_filter hq2
        simp only [Bool.not_eq_true'] at hfalse
        have htrue : List.elem q (visitedPaths A) = true := List.elem_iff.mpr hmemA
        have hfalse2 : List.elem q (visitedPaths A) = false := hfalse
        rw [htrue] at hfalse2
        cases hfalse2

/-- C6 counterexample: with the key "a/b" containing the separator, the
second document is visited twice at the same path string, and Compare
records the differing path twice, contradicting the claim that each
differing path appears exactly once. -/
theorem C6_counterexample :
    Diff.compare ⟨.obj [("x", .num 1)]⟩
        ⟨.obj [("a/b", .num 1), ("a", .obj [("b", .num 2)])]⟩
        = some ["/x", "/a/b", "/a/b"] ∧
      ¬ (["/x", "/a/b", "/a/b"] : List String).Nodup := by
  exact ⟨rfl, by decide⟩

/-- C6 witness: comparing {"a":1} with {"a":2,"b":3} yields exactly the
differing paths /a then /b, each once. -/
theorem C6_diff_characterization_witness :
    (["/a", "/b"] : List String)
        = ((visitedPVs ⟨.obj [("a", .num 1)]⟩).filter
            (fun pn => recordedInPass1 ⟨.obj [("a", .num 2), ("b", .num 3)]⟩ pn.1 pn.2)).map
              Prod.fst
          ++ (visitedPaths ⟨.obj [("a", .num 2), ("b", .num 3)]⟩).filter
            (fun q => !((visitedPaths ⟨.obj [("a", .num 1)]⟩).contains q)) ∧
      (["/a", "/b"] : List String).Nodup := by
  have h := C6_diff_characterization ⟨.obj [("a", .num 1)]⟩
    ⟨.obj [("a", .num 2), ("b", .num 3)]⟩ ["/a", "/b"] rfl
  exact ⟨h.1, h.2 (by decide) (by decide)⟩

end Gjp

namespace Gjp

/-- Membership in the field traversal decomposes into membership in one
field's subtraversal. -/
theorem mem_processFields (fs : List (String × Node)) (ks κ : List String) (m : Node) :
    (κ, m) ∈ processFields fs ks ↔
      ∃ kv ∈ fs, (κ, m) ∈ processKeys kv.2 (ks ++ [kv.1]) := by
  induction fs with
  | nil => simp [processFields]
  | cons kv rest ih =>
    obtain ⟨k, sub⟩ := kv
    simp [processFields, List.mem_append, ih]

/-- Membership in the element traversal decomposes into membership in one
element's subtraversal at its index. -/
theorem mem_processElems (l : List Node) :
    ∀ (idx : Nat) (ks κ : List String) (m : Node),
      (κ, m) ∈ processElems l idx ks ↔
        ∃ j x, l[j]? = some x ∧ (κ, m) ∈ processKeys x (ks ++ [itoa (idx + j)]) := by
  induction l with
  | nil => intro idx ks κ m; simp [processElems]
  | cons y ys ih =>
    intro idx ks κ m
    simp only [processElems, List.mem_append, ih (idx + 1) ks κ m]
    constructor
    · rintro (hy | ⟨j, x, hjx, hmem⟩)
      · exact ⟨0, y, by simp, by simpa using hy⟩
      · exact ⟨j + 1, x, by simpa using hjx, by
          have : idx + (j + 1) = idx + 1 + j := by omega
          rw [this]
          exact hmem⟩
    · rintro ⟨j, x, hjx, hmem⟩
      cases j with
      | zero =>
        simp only [List.getElem?_cons_zero] at hjx
        injection hjx with hjx
        subst hjx
        exact Or.inl (by simpa using hmem)
      | succ j2 =>
        refine Or.inr ⟨j2, x, by simpa using hjx, ?_⟩
        have : idx + 1 + j2 = idx + (j2 + 1) := by omega
        rw [this]
        exact hmem

/-- Every visited key sequence extends the starting key sequence. -/
theorem processKeys_extends :
    ∀ n, ∀ (ks κ : List String) (m : Node), (κ, m) ∈ processKeys n ks →
      ∃ ext, κ = ks ++ ext := by
  refine node_ind ?_ ?_ ?_ ?_ ?_ ?_
  · intro ks κ m hm
    simp only [processKeys, List.mem_singleton] at hm
    exact ⟨[], by cases hm; simp⟩
  · intro b ks κ m hm
    simp only [processKeys, List.mem_singleton] at hm
    exact ⟨[], by cases hm; simp⟩
  · intro x ks κ m hm
    simp only [processKeys, List.mem_singleton] at hm
    exact ⟨[], by cases hm; simp⟩
  · intro s ks κ m hm
    simp only [processKeys, List.mem_singleton] at hm
    exact ⟨[], by cases hm; simp⟩
  · intro elems hP ks κ m hm
    cases elems with
    | nil =>
      simp only [processKeys, List.mem_singleton] at hm
      exact ⟨[], by cases hm; simp⟩
    | cons x xs =>
      rw [show processKeys (.arr (x :: xs)) ks = processElems (x :: xs) 0 ks from rfl] at hm
      rcases (mem_processElems (x :: xs) 0 ks κ m).mp hm with ⟨j, y, hjy, hmem⟩
      have hy : y ∈ x :: xs := by
        rcases List.getElem?_eq_some_iff.mp hjy with ⟨hj, hget⟩
        exact hget ▸ List.getElem_mem hj
      rcases hP y hy (ks ++ [itoa (0 + j)]) κ m hmem with ⟨ext, hext⟩
      exact ⟨itoa (0 + j) :: ext, by simp [hext]⟩
  · intro fields hP ks κ m hm
    cases fields with
    | nil =>
      simp only [processKeys, List.mem_singleton] at hm
      exact ⟨[], by cases hm; simp⟩
    | cons f fs =>
      rw [show processKeys (.obj (f :: fs)) ks = processFields (f :: fs) ks from rfl] at hm
      rcases (mem_processFields (f :: fs) ks κ m).mp hm with ⟨kv, hkv, hmem⟩
      rcases hP kv hkv (ks ++ [kv.1]) κ m hmem with ⟨ext, hext⟩
      exact ⟨kv.1 :: ext, by simp [hext]⟩

/-- A visited key sequence inside a non-empty container strictly extends
the container's key sequence by its child segment. -/
theorem mem_processFields_shape (fs : List (String × Node)) (ks κ : List String) (m : Node)
    (hm : (κ, m) ∈ processFields fs ks) : ∃ seg ext, κ = ks ++ seg :: ext := by
  rcases (mem_processFields fs ks κ m).mp hm with ⟨kv, hkv, hmem⟩
  rcases processKeys_extends kv.2 (ks ++ [kv.1]) κ m hmem with ⟨ext, hext⟩
  exact ⟨kv.1, ext, by simp [hext]⟩

/-- A visited key sequence inside a non-empty array strictly extends the
array's key sequence by its index segment. -/
theorem mem_processElems_shape (l : List Node) (idx : Nat) (ks κ : List String) (m : Node)
    (hm : (κ, m) ∈ processElems l idx ks) : ∃ seg ext, κ = ks ++ seg :: ext := by
  rcases (mem_processElems l idx ks κ m).mp hm with ⟨j, y, hjy, hmem⟩
  rcases processKeys_extends y (ks ++ [itoa (idx + j)]) κ m hmem with ⟨ext, hext⟩
  exact ⟨itoa (idx + j), ext, by simp [hext]⟩

/-- Folding digits of an appended digit. -/
theorem ofDigits_append (l : List Char) (c : Char) :
    ofDigits (l ++ [c]) = 10 * ofDigits l + digitVal c := by
  simp [ofDigits, List.foldl_append, Nat.mul_comm]

/-- ofDigits undoes itoaAux when the fuel is sufficient. -/
theorem ofDigits_itoaAux : ∀ fuel n, n < fuel → ofDigits (itoaAux fuel n) = n := by
  intro fuel
  induction fuel with
  | zero => intro n hn; omega
  | succ f ih =>
    intro n hn
    rw [itoaAux]
    by_cases h10 : n < 10
    · rw [if_pos h10]
      have hd : digitVal (digitChar n) = n := by
        interval_cases n <;> rfl
      simp [ofDigits, hd]
    · rw [if_neg h10]
      rw [ofDigits_append, ih (n / 10) (by omega)]
      have hmod : n % 10 < 10 := Nat.mod_lt _ (by omega)
      have : digitVal (digitChar (n % 10)) = n % 10 := by
        generalize n % 10 = k at hmod
        interval_cases k <;> rfl
      rw [this]
      omega

/-- itoa is injective: distinct indices render as distinct segments. -/
theorem itoa_injective (m n : Nat) (h : itoa m = itoa n) : m = n := by
  unfold itoa at h
  injection h with hdig
  have hm := ofDigits_itoaAux (m + 1) m (by omega)
  have hn := ofDigits_itoaAux (n + 1) n (by omega)
  rw [hdig, hn] at hm
  omega

end Gjp

namespace Gjp

/-- The element at the first position past a prefix of an append. -/
theorem key_at_append (ks : List String) (seg : String) (ext : List String) :
    (ks ++ seg :: ext)[ks.length]? = some seg := by
  rw [List.getElem?_append_right (Nat.le_refl _)]
  simp

/-- Element traversal of a list visits leafCountL plus
emptyContainerCountL many pairs. -/
theorem processElems_length_aux (l : List Node)
    (hP : ∀ x ∈ l, ∀ ks : List String,
      (processKeys x ks).length = leafCount x + emptyContainerCount x) :
    ∀ (idx : Nat) (ks : List String),
      (processElems l idx ks).length = leafCountL l + emptyContainerCountL l := by
  induction l with
  | nil => intro idx ks; rfl
  | cons x xs ih =>
    intro idx ks
    simp only [processElems, List.length_append]
    rw [hP x (by simp) (ks ++ [itoa idx]),
      ih (fun y hy ks2 => hP y (by simp [hy]) ks2) (idx + 1) ks]
    simp only [leafCountL, emptyContainerCountL]
    omega

/-- Field traversal of a list visits leafCountF plus
emptyContainerCountF many pairs. -/
theorem processFields_length_aux (fs : List (String × Node))
    (hP : ∀ kv ∈ fs, ∀ ks : List String,
      (processKeys kv.2 ks).length = leafCount kv.2 + emptyContainerCount kv.2) :
    ∀ ks : List String,
      (processFields fs ks).length = leafCountF fs + emptyContainerCountF fs := by
  induction fs with
  | nil => intro ks; rfl
  | cons kv rest ih =>
    obtain ⟨k, sub⟩ := kv
    intro ks
    simp only [processFields, List.length_append]
    rw [hP (k, sub) (by simp) (ks ++ [k]),
      ih (fun kv2 h2 ks2 => hP kv2 (by simp [h2]) ks2) ks]
    simp only [leafCountF, emptyContainerCountF]
    omega

/-- The recursive visitor performs exactly one invocation per leaf plus
one per empty container. -/
theorem processKeys_length :
    ∀ n, ∀ ks : List String,
      (processKeys n ks).length = leafCount n + emptyContainerCount n := by
  refine node_ind ?_ ?_ ?_ ?_ ?_ ?_
  · intro ks; rfl
  · intro b ks; rfl
  · intro x ks; rfl
  · intro s ks; rfl
  · intro elems hP ks
    cases elems with
    | nil => rfl
    | cons x xs =>
      rw [show processKeys (.arr (x :: xs)) ks = processElems (x :: xs) 0 ks from rfl,
        processElems_length_aux (x :: xs) (fun y hy ks2 => hP y hy ks2) 0 ks]
      rfl
  · intro fields hP ks
    cases fields with
    | nil => rfl
    | cons f fs =>
      rw [show processKeys (.obj (f :: fs)) ks = processFields (f :: fs) ks from rfl,
        processFields_length_aux (f :: fs) (fun kv hkv ks2 => hP kv hkv ks2) ks]
      rfl

/-- Under distinct sibling keys, the field traversal visits pairwise
distinct key sequences. -/
theorem processFields_nodup_aux (fs : List (String × Node))
    (hP : ∀ kv ∈ fs, ∀ ks : List String, wfNode kv.2 = true →
      ((processKeys kv.2 ks).map Prod.fst).Nodup) :
    ∀ ks : List String, wfNodeF fs = true → distinctKeys (fs.map Prod.fst) = true →
      ((processFields fs ks).map Prod.fst).Nodup := by
  induction fs with
  | nil => intro ks _ _; simp [processFields]
  | cons kv rest ih =>
    obtain ⟨k, sub⟩ := kv
    intro ks hwf hdk
    simp only [wfNodeF, Bool.and_eq_true] at hwf
    simp only [List.map_cons, distinctKeys, Bool.and_eq_true, Bool.not_eq_true'] at hdk
    simp only [processFields, List.map_append]
    rw [List.nodup_append]
    refine ⟨hP (k, sub) (by simp) (ks ++ [k]) hwf.1,
      ih (fun kv2 h2 => hP kv2 (by simp [h2])) ks hwf.2 hdk.2, ?_⟩
    intro κ hκ1 hκ2
    rcases List.mem_map.mp hκ1 with ⟨⟨κa, ma⟩, hma, hκa⟩
    rcases List.mem_map.mp hκ2 with ⟨⟨κb, mb⟩, hmb, hκb⟩
    rcases processKeys_extends sub (ks ++ [k]) κa ma hma with ⟨ext, hext⟩
    rcases (mem_processFields rest ks κb mb).mp hmb with ⟨kv2, hkv2, hmem2⟩
    rcases processKeys_extends kv2.2 (ks ++ [kv2.1]) κb mb hmem2 with ⟨ext2, hext2⟩
    have hkk : k = kv2.1 := by
      have h1 : κ[ks.length]? = some k := by
        rw [← hκa, hext, List.append_assoc, List.singleton_append, key_at_append]
      have h2 : κ[ks.length]? = some kv2.1 := by
        rw [← hκb, hext2, List.append_assoc, List.singleton_append, key_at_append]
      rw [h1] at h2
      exact Option.some.inj h2
    have hkmem : List.elem k (rest.map Prod.fst) = true :=
      List.elem_iff.mpr (hkk ▸ List.mem_map_of_mem Prod.fst hkv2)
    have : List.elem k (rest.map Prod.fst) = false := hdk.1
    rw [hkmem] at this
    cases this

/-- The element traversal visits pairwise distinct key sequences: the
index segments of distinct indices differ. -/
theorem processElems_nodup_aux (l : List Node)
    (hP : ∀ x ∈ l, ∀ ks : List String, wfNode x = true →
      ((processKeys x ks).map Prod.fst).Nodup) :
    ∀ (idx : Nat) (ks : List String), wfNodeL l = true →
      ((processElems l idx ks).map Prod.fst).Nodup := by
  induction l with
  | nil => intro idx ks _; simp [processElems]
  | cons x xs ih =>
    intro idx ks hwf
    simp only [wfNodeL, Bool.and_eq_true] at hwf
    simp only [processElems, List.map_append]
    rw [List.nodup_append]
    refine ⟨hP x (by simp) (ks ++ [itoa idx]) hwf.1,
      ih (fun y hy => hP y (by simp [hy])) (idx + 1) ks hwf.2, ?_⟩
    intro κ hκ1 hκ2
    rcases List.mem_map.mp hκ1 with ⟨⟨κa, ma⟩, hma, hκa⟩
    rcases List.mem_map.mp hκ2 with ⟨⟨κb, mb⟩, hmb, hκb⟩
    rcases processKeys_extends x (ks ++ [itoa idx]) κa ma hma with ⟨ext, hext⟩
    rcases (mem_processElems xs (idx + 1) ks κb mb).mp hmb with ⟨j, y, hjy, hmem2⟩
    rcases processKeys_extends y (ks ++ [itoa (idx + 1 + j)]) κb mb hmem2 with ⟨ext2, hext2⟩
    have hseg : itoa idx = itoa (idx + 1 + j) := by
      have h1 : κ[ks.length]? = some (itoa idx) := by
        rw [← hκa, hext, List.append_assoc, List.singleton_append, key_at_append]
      have h2 : κ[ks.length]? = some (itoa (idx + 1 + j)) := by
        rw [← hκb, hext2, List.append_assoc, List.singleton_append, key_at_append]
      rw [h1] at h2
      exact Option.some.inj h2
    have := itoa_injective _ _ hseg
    omega

/-- Under the Go-map key invariant, the recursive visitor visits pairwise
distinct key sequences. -/
theorem processKeys_nodup :
    ∀ n, ∀ ks : List String, wfNode n = true →
      ((processKeys n ks).map Prod.fst).Nodup := by
  refine node_ind ?_ ?_ ?_ ?_ ?_ ?_
  · intro ks _; simp [processKeys]
  · intro b ks _; simp [processKeys]
  · intro x ks _; simp [processKeys]
  · intro s ks _; simp [processKeys]
  · intro elems hP ks hwf
    cases elems with
    | nil => simp [processKeys]
    | cons x xs =>
      rw [show processKeys (.arr (x :: xs)) ks = processElems (x :: xs) 0 ks from rfl]
      exact processElems_nodup_aux (x :: xs) (fun y hy => hP y hy) 0 ks hwf
  · intro fields hP ks hwf
    cases fields with
    | nil => simp [processKeys]
    | cons f fs =>
      rw [show processKeys (.obj (f :: fs)) ks = processFields (f :: fs) ks from rfl]
      simp only [wfNode, Bool.and_eq_true] at hwf
      exact processFields_nodup_aux (f :: fs) (fun kv hkv => hP kv hkv) ks hwf.2 hwf.1

end Gjp

namespace Gjp

/-- C7 counterexample: with the object key "a/b" containing the
separator, the recursive visitor performs N + K invocations but two of
them carry the same path string, contradicting the claim that every
invocation carries a distinct path. -/
theorem C7_counterexample :
    visitedPaths ⟨.obj [("a/b", .num 1), ("a", .obj [("b", .num 2)])]⟩
        = ["/a/b", "/a/b"] ∧
      wfNode (.obj [("a/b", .num 1), ("a", .obj [("b", .num 2)])]) = true ∧
      ¬ (visitedPaths ⟨.obj [("a/b", .num 1), ("a", .obj [("b", .num 2)])]⟩).Nodup := by
  refine ⟨rfl, rfl, ?_⟩
  rw [show visitedPaths ⟨.obj [("a/b", .num 1), ("a", .obj [("b", .num 2)])]⟩
      = ["/a/b", "/a/b"] from rfl]
  decide

/-- C7 amended: the recursive visitor performs exactly one invocation per
leaf plus one per empty container; under the Go-map invariant of
pairwise distinct sibling keys the visited key sequences are pairwise
distinct (the derived path strings can coincide when a key contains the
separator); an empty container is visited itself exactly once at its own
key sequence; and a non-empty container is never visited itself, only
its descendants are. -/
theorem C7_traversal (n : Node) :
    (processKeys n []).length = leafCount n + emptyContainerCount n ∧
    (wfNode n = true → ((processKeys n []).map Prod.fst).Nodup) ∧
    ((n = .obj [] ∨ n = .arr []) → ∀ ks : List String, processKeys n ks = [(ks, n)]) ∧
    ((∃ f fs, n = .obj (f :: fs)) ∨ (∃ x xs, n = .arr (x :: xs)) →
      ∀ (ks : List String) (m : Node), (ks, m) ∉ processKeys n ks) := by
  refine ⟨processKeys_length n [], fun h => processKeys_nodup n [] h, ?_, ?_⟩
  · rintro (rfl | rfl) ks <;> rfl
  · rintro (⟨f, fs, rfl⟩ | ⟨x, xs, rfl⟩) ks m hm
    · rw [show processKeys (.obj (f :: fs)) ks = processFields (f :: fs) ks from rfl] at hm
      rcases mem_processFields_shape (f :: fs) ks ks m hm with ⟨seg, ext, hx⟩
      have := congrArg List.length hx
      simp at this
    · rw [show processKeys (.arr (x :: xs)) ks = processElems (x :: xs) 0 ks from rfl] at hm
      rcases mem_processElems_shape (x :: xs) 0 ks ks m hm with ⟨seg, ext, hx⟩
      have := congrArg List.length hx
      simp at this

/-- C7 amended witness: the document {"a": 1, "b": {}} has one leaf and
one empty container, is visited exactly twice, at distinct key sequences,
the empty object is visited itself once, and the whole non-empty root is
never visited itself. -/
theorem C7_traversal_witness :
    (processKeys (.obj [("a", .num 1), ("b", .obj [])]) []).length = 2 ∧
      ((processKeys (.obj [("a", .num 1), ("b", .obj [])]) []).map Prod.fst).Nodup ∧
      processKeys (.obj []) ["z"] = [(["z"], .obj [])] ∧
      (["z"], Node.num 7) ∉ processKeys (.obj [("a", .num 1), ("b", .obj [])]) ["z"] := by
  have h := C7_traversal (.obj [("a", .num 1), ("b", .obj [])])
  refine ⟨?_, h.2.1 rfl, ?_, ?_⟩
  · rw [h.1]
    rfl
  · exact (C7_traversal (.obj [])).2.2.1 (Or.inl rfl) ["z"]
  · exact h.2.2.2 (Or.inl ⟨("a", .num 1), [("b", .obj [])], rfl⟩) ["z"] (Node.num 7)

end Gjp

namespace Gjp

/-- Cleanly separating key sequences are both non-empty. -/
theorem divergesB_ne_nil (kp kq : List String) (h : divergesB kp kq = true) :
    kp ≠ [] ∧ kq ≠ [] := by
  cases kp with
  | nil => simp [divergesB] at h
  | cons a p =>
    cases kq with
    | nil => simp [divergesB] at h
    | cons b q => exact ⟨by simp, by simp⟩

/-- The frame lemma: a successful insert along a key sequence that
separates cleanly from a resolvable read key sequence leaves the read
value unchanged. -/
theorem insert_frame (kp : List String) :
    ∀ (kq : List String) (node v w r : Node),
      (∀ s ∈ kq, s ≠ "") → divergesB kp kq = true →
      valueAt node kq = .ok w → insertValueInNode node kp v = .ok r →
      valueAt r kq = .ok w := by
  induction kp with
  | nil => intro kq node v w r _ hdiv; simp [divergesB] at hdiv
  | cons a kp2 ih =>
    intro kq node v w r hne hdiv hq hins
    cases kq with
    | nil => simp [divergesB] at hdiv
    | cons b kq2 =>
      have hb : b ≠ "" := hne b (by simp)
      have hne2 : ∀ s ∈ kq2, s ≠ "" := fun s hs => hne s (by simp [hs])
      by_cases hab : a = b
      · subst hab
        have hdiv2 : divergesB kp2 kq2 = true := by simpa [divergesB] using hdiv
        obtain ⟨hkp2ne, _⟩ := divergesB_ne_nil kp2 kq2 hdiv2
        cases node with
        | null => simp [valueAt, hb] at hq
        | bool bb => simp [valueAt, hb] at hq
        | num x => simp [valueAt, hb] at hq
        | str s => simp [valueAt, hb] at hq
        | obj fields =>
          simp only [valueAt, if_neg hb] at hq
          cases hlk : lookupField fields a with
          | none => simp only [hlk] at hq; cases hq
          | some field =>
            simp only [hlk] at hq
            have hget : objGet fields a = field := by simp [objGet, hlk]
            rw [insertValueInNode] at hins
            have hins2 : insertValueInObject fields (a :: kp2) v = .ok r := hins
            obtain ⟨p0, ps, hp⟩ := List.exists_cons_of_ne_nil hkp2ne
            rw [hp, insertValueInObject_cons, hget, ← hp] at hins2
            by_cases hval : isValue field
            · rw [if_pos hval] at hins2; cases hins2
            · rw [if_neg hval] at hins2
              cases hrec : insertValueInNode field kp2 v with
              | ok nn =>
                simp only [hrec] at hins2
                injection hins2 with hr
                subst hr
                simp only [valueAt, if_neg hb, lookup_setField_self]
                exact ih kq2 field v w nn hne2 hdiv2 hq hrec
              | err e => simp only [hrec] at hins2; cases hins2
              | panic => simp only [hrec] at hins2; cases hins2
        | arr elems =>
          simp only [valueAt, if_neg hb] at hq
          cases hai : atoi a with
          | none => simp only [hai] at hq; cases hq
          | some i =>
            simp only [hai] at hq
            by_cases hlen : (elems.length : Int) ≤ i
            · rw [if_pos hlen] at hq; cases hq
            · rw [if_neg hlen] at hq
              by_cases hi : i < 0
              · rw [if_pos hi] at hq; cases hq
              · rw [if_neg hi] at hq
                rw [insertValueInNode] at hins
                have hins2 : insertValueInArray elems (a :: kp2) v = .ok r := hins
                rw [insertValueInArray_cons] at hins2
                simp only [hai, if_neg hi, growArr_eq_self elems i hlen] at hins2
                rw [if_neg (show ¬ (kp2.isEmpty = true) by
                  cases kp2 with
                  | nil => exact absurd rfl hkp2ne
                  | cons _ _ => simp)] at hins2
                by_cases hval : isValue (elems.getD i.toNat .null)
                · rw [if_pos hval] at hins2; cases hins2
                · rw [if_neg hval] at hins2
                  cases hrec : insertValueInNode (elems.getD i.toNat .null) kp2 v with
                  | ok nn =>
                    simp only [hrec] at hins2
                    injection hins2 with hr
                    subst hr
                    have hlen2 : ¬ (((elems.set i.toNat nn).length : Int) ≤ i) := by
                      rw [List.length_set]; exact hlen
                    simp only [valueAt, if_neg hb, hai, if_neg hlen2, if_neg hi]
                    rw [getD_set_self _ _ _ _ (by omega)]
                    exact ih kq2 _ v w nn hne2 hdiv2 hq hrec
                  | err e => simp only [hrec] at hins2; cases hins2
                  | panic => simp only [hrec] at hins2; cases hins2
      · have hdiff : sameInt a b = false := by
          simp only [divergesB, if_neg hab] at hdiv
          simpa using hdiv
        have hba : b ≠ a := fun hh => hab hh.symm
        cases node with
        | null => simp [valueAt, hb] at hq
        | bool bb => simp [valueAt, hb] at hq
        | num x => simp [valueAt, hb] at hq
        | str s => simp [valueAt, hb] at hq
        | obj fields =>
          simp only [valueAt, if_neg hb] at hq
          cases hlk : lookupField fields b with
          | none => simp only [hlk] at hq; cases hq
          | some fieldb =>
            simp only [hlk] at hq
            rw [insertValueInNode] at hins
            have hins2 : insertValueInObject fields (a :: kp2) v = .ok r := hins
            cases kp2 with
            | nil =>
              rw [insertValueInObject_one] at hins2
              by_cases hoa : isObjectOrArray (objGet fields a)
              · rw [if_pos hoa] at hins2; cases hins2
              · rw [if_neg hoa] at hins2
                injection hins2 with hr
                subst hr
                simp only [valueAt, if_neg hb, lookup_setField_ne fields a b v hba, hlk]
                exact hq
            | cons p0 ps =>
              rw [insertValueInObject_cons] at hins2
              by_cases hval : isValue (objGet fields a)
              · rw [if_pos hval] at hins2; cases hins2
              · rw [if_neg hval] at hins2
                cases hrec : insertValueInNode (objGet fields a) (p0 :: ps) v with
                | ok nn =>
                  simp only [hrec] at hins2
                  injection hins2 with hr
                  subst hr
                  simp only [valueAt, if_neg hb, lookup_setField_ne fields a b nn hba, hlk]
                  exact hq
                | err e => simp only [hrec] at hins2; cases hins2
                | panic => simp only [hrec] at hins2; cases hins2
        | arr elems =>
          simp only [valueAt, if_neg hb] at hq
          cases hbj : atoi b with
          | none => simp only [hbj] at hq; cases hq
          | some jb =>
            simp only [hbj] at hq
            by_cases hlenb : (elems.length : Int) ≤ jb
            · rw [if_pos hlenb] at hq; cases hq
            · rw [if_neg hlenb] at hq
              by_cases hjb : jb < 0
              · rw [if_pos hjb] at hq; cases hq
              · rw [if_neg hjb] at hq
                rw [insertValueInNode] at hins
                have hins2 : insertValueInArray elems (a :: kp2) v = .ok r := hins
                rw [insertValueInArray_cons] at hins2
                cases hai : atoi a with
                | none => simp only [hai] at hins2; cases hins2
                | some ia =>
                  simp only [hai] at hins2
                  by_cases hia : ia < 0
                  · rw [if_pos hia] at hins2; cases hins2
                  · rw [if_neg hia] at hins2
                    have hianejb : ¬ ia = jb := by
                      intro hcon
                      rw [show sameInt a b = (ia == jb) by simp [sameInt, hai, hbj]] at hdiff
                      simp [hcon] at hdiff
                    have hjblen : jb.toNat < elems.length := by omega
                    have hgq : (growArr elems ia).getD jb.toNat .null
                        = elems.getD jb.toNat .null :=
                      growArr_getD_old elems ia jb.toNat .null hjblen
                    have hlenset : ∀ x : Node,
                        ¬ ((((growArr elems ia).set ia.toNat x).length : Int) ≤ jb) := by
                      intro x
                      rw [List.length_set, growArr_length elems ia (by omega)]
                      omega
                    by_cases hkp2 : kp2.isEmpty = true
                    · rw [if_pos hkp2] at hins2
                      by_cases hoa : isObjectOrArray ((growArr elems ia).getD ia.toNat .null)
                      · rw [if_pos hoa] at hins2; cases hins2
                      · rw [if_neg hoa] at hins2
                        injection hins2 with hr
                        subst hr
                        simp only [valueAt, if_neg hb, hbj, if_neg (hlenset v), if_neg hjb]
                        rw [getD_set_ne _ _ _ _ _ (by omega), hgq]
                        exact hq
                    · rw [if_neg hkp2] at hins2
                      by_cases hval : isValue ((growArr elems ia).getD ia.toNat .null)
                      · rw [if_pos hval] at hins2; cases hins2
                      · rw [if_neg hval] at hins2
                        cases hrec : insertValueInNode
                            ((growArr elems ia).getD ia.toNat .null) kp2 v with
                        | ok nn =>
                          simp only [hrec] at hins2
                          injection hins2 with hr
                          subst hr
                          simp only [valueAt, if_neg hb, hbj, if_neg (hlenset nn), if_neg hjb]
                          rw [getD_set_ne _ _ _ _ _ (by omega), hgq]
                          exact hq
                        | err e => simp only [hrec] at hins2; cases hins2
                        | panic => simp only [hrec] at hins2; cases hins2

end Gjp

namespace Gjp

/-- C10 counterexample: the segment sequences of the two paths differ at
their middle segment ("1" versus "01"), so neither is a prefix of the
other, yet both address index 1 of the array at /a: a successful write
through segment "1" changes what the path through segment "01" reads. -/
theorem C10_counterexample :
    ¬ (splitPath "/a/1/x" <+: splitPath "/a/01/x") ∧
      ¬ (splitPath "/a/01/x" <+: splitPath "/a/1/x") ∧
      Document.ValueAt ⟨.obj [("a", .arr [.null, .obj [("x", .num 1)]])]⟩ "/a/01/x"
        = some ⟨.num 1, false⟩ ∧
      Document.SetValueAt ⟨.obj [("a", .arr [.null, .obj [("x", .num 1)]])]⟩ "/a/1/x"
          (.num 99)
        = .ok ⟨.obj [("a", .arr [.null, .obj [("x", .num 99)]])]⟩ ∧
      Document.ValueAt ⟨.obj [("a", .arr [.null, .obj [("x", .num 99)]])]⟩ "/a/01/x"
        = some ⟨.num 99, false⟩ ∧
      Node.num 99 ≠ Node.num 1 := by
  refine ⟨by decide, by decide, rfl, ?_, rfl, by simp⟩
  simp [Document.SetValueAt, show splitPath "/a/1/x" = ["a", "1", "x"] from rfl,
    insertValueInNode, insertValueInObject_cons, insertValueInArray_cons, objGet,
    lookupField, isValue, isObjectOrArray, atoi, digitsToNat, digitsToNatAux, growArr,
    List.getD, insertValueInObject_one, setField]

end Gjp

namespace Gjp

/-- C10 amended: a successful SetValueAt disturbs no other value, for
every pair of paths whose segment sequences separate cleanly: they differ
at some position where both still have a segment and the two segments do
not parse as the same integer (this excludes pairs such as "1" and "01"
that are different strings but address the same array slot, on which the
original claim fails). -/
theorem C10_set_frame (d : Document) (p q : String) (v w : Node) (d2 : Document)
    (hdiv : divergesB (splitPath p) (splitPath q) = true)
    (hq : d.ValueAt q = some ⟨w, false⟩)
    (hset : d.SetValueAt p v = .ok d2) :
    d2.ValueAt q = some ⟨w, false⟩ := by
  unfold Document.ValueAt at hq ⊢
  unfold Document.SetValueAt at hset
  cases hres : valueAt d.root (splitPath q) with
  | ok w0 =>
    simp only [hres] at hq
    injection hq with hq
    have hw0 : w0 = w := congrArg PathValue.node hq
    subst hw0
    cases hins : insertValueInNode d.root (splitPath p) v with
    | ok r =>
      simp only [hins] at hset
      injection hset with hd
      subst hd
      rw [insert_frame (splitPath p) (splitPath q) d.root v w0 r
        (splitPath_not_empty q) hdiv hres hins]
    | err e => simp only [hins] at hset; cases hset
    | panic => simp only [hins] at hset; cases hset
  | err e =>
    simp only [hres] at hq
    injection hq with hq
    have := congrArg PathValue.isErr hq
    simp at this
  | panic => simp only [hres] at hq; cases hq

/-- C10 amended witness: on {"b": 5, "a": [1]}, writing 9 at /a/0 leaves
the value at /b unchanged. -/
theorem C10_set_frame_witness :
    divergesB (splitPath "/a/0") (splitPath "/b") = true ∧
      Document.ValueAt ⟨.obj [("b", .num 5), ("a", .arr [.num 1])]⟩ "/b"
        = some ⟨.num 5, false⟩ ∧
      Document.SetValueAt ⟨.obj [("b", .num 5), ("a", .arr [.num 1])]⟩ "/a/0" (.num 9)
        = .ok ⟨.obj [("b", .num 5), ("a", .arr [.num 9])]⟩ ∧
      Document.ValueAt ⟨.obj [("b", .num 5), ("a", .arr [.num 9])]⟩ "/b"
        = some ⟨.num 5, false⟩ := by
  have hset : Document.SetValueAt ⟨.obj [("b", .num 5), ("a", .arr [.num 1])]⟩ "/a/0"
      (.num 9) = .ok ⟨.obj [("b", .num 5), ("a", .arr [.num 9])]⟩ := by
    simp [Document.SetValueAt, show splitPath "/a/0" = ["a", "0"] from rfl,
      insertValueInNode, insertValueInObject_cons, insertValueInArray_cons, objGet,
      lookupField, isValue, isObjectOrArray, atoi, digitsToNat, digitsToNatAux, growArr,
      List.getD, setField]
  exact ⟨rfl, rfl, hset,
    C10_set_frame ⟨.obj [("b", .num 5), ("a", .arr [.num 1])]⟩ "/a/0" "/b" (.num 9)
      (.num 5) ⟨.obj [("b", .num 5), ("a", .arr [.num 9])]⟩ rfl rfl hset⟩

end Gjp

namespace Gjp

/-- C9: contrary to the claim that a non-resolving path makes Range fail
with an invalid-path error, Range is not total: on the one-element array
[1] and the path with single segment "-1", the negative-index panic of
valueAt escapes Range, so the call crashes instead of failing. -/
theorem C9_range_panics_on_negative_index :
    Document.Range ⟨.arr [.num 1]⟩ "/-1" = .panic := rfl

end Gjp
